import Mathlib

/-!
Verification development for the `physicsfront.qiskit` convenience layer.

The definitions below are shallow embeddings of the algorithmic core of the
repository:

* `src/physicsfront/qiskit/qft.py` — the memoizing QFT function factory
  (`get_qft`), embedded as a fueled interpreter over an explicit heap of
  procedure records (`Proc`): the Python function objects become heap
  indices, attribute mutation becomes record update, and Python `assert`
  statements become `Option` failure.
* `src/physicsfront/qiskit/__init__.py` — classical-bit accounting
  (`clbit_label_to_mii`, `memory_item_index`, `gather_counts`) and the
  token-rewriting pass (`tokenize`, wrapped by `expand`).  Python dicts
  become insertion-ordered association lists, exceptions become `Except`.
-/

namespace PF

/-! ## QFT factory: src/physicsfront/qiskit/qft.py -/

/-- Resolved output endianness (after `auto`/`opposite` resolution). -/
inductive Endian where
  | little
  | big
  deriving DecidableEq, Repr, Fintype

/-- The measurement-friendliness parameter, after the `'measure'` →
`'measured'` synonym has been applied: `off` is Python `False`, `friendly`
is Python `True`, `measured` is the string `'measured'`. -/
inductive Mf where
  | off
  | friendly
  | measured
  deriving DecidableEq, Repr, Fintype

/-- Contract-supported values of the `output_endian` argument of `get_qft`. -/
inductive EndianArg where
  | auto
  | opposite
  | auto_opposite
  | little
  | big
  deriving DecidableEq, Repr, Fintype

/-- Contract-supported values of the `mf` argument of `get_qft`:
`False`, `True`, `'measured'`, `'measure'`. -/
inductive MfArg where
  | off
  | friendly
  | measured
  | measure
  deriving DecidableEq, Repr, Fintype

/-- Source line 153: `if mf == 'measure': mf = 'measured'`. -/
def normMf : MfArg → Mf
  | .off => .off
  | .friendly => .friendly
  | .measured => .measured
  | .measure => .measured

/-- Source lines 154-163: resolution of `'auto'`, `'opposite'` and
`'auto_opposite'` to a concrete endianness (`mf` is already normalized). -/
def resolveEndian (outputEndian : EndianArg) (inverse : Bool) (mf : Mf) :
    Endian :=
  match outputEndian with
  | .auto =>
      if mf = .measured then .little
      else if inverse then .little else .big
  | .opposite | .auto_opposite =>
      if mf = .measured then .big
      else if inverse then .big else .little
  | .little => .little
  | .big => .big

/-- A resolved cache key `(output_endian, inverse, mf)`. -/
abbrev QKey := Endian × Bool × Mf

/-- Source lines 194-201: the generated function name encoding the key. -/
def funcname (k : QKey) : String :=
  (if k.2.1 then "iqft" else "qft") ++
  (match k.2.2 with
   | .off => ""
   | .friendly => "_mf"
   | .measured => "_m") ++
  (match k.1 with
   | .little => "_leo"
   | .big => "_beo")

/-- Source line 205: `funcname_example = '_' + funcname + '_example'`
(only built for `mf == 'measured'`). -/
def exampleName (k : QKey) : String :=
  "_" ++ funcname k ++ "_example"

/-- A cached procedure record.  The Python function object's dynamically
injected attributes become `Option Nat` fields holding the heap index of
the partner function (`none` = attribute not yet assigned). -/
structure Proc where
  name : String
  invA : Option Nat := none
  oppEndianA : Option Nat := none
  oppMfA : Option Nat := none
  otherMfA : Option Nat := none
  exampleA : Option Nat := none
  deriving DecidableEq, Repr

/-- The factory cache: procedure records in creation order; a procedure's
identity (Python `is`) is its index in this list. -/
abbrev QSt := List Proc

/-- Index of the cached procedure with the given name, if any
(`cache.get (funcname, None)` in the source). -/
def lookupName (st : QSt) (nm : String) : Option Nat :=
  st.findIdx? (fun p => p.name == nm)

/-- Source lines 91-96 (`_bind_one_other`): set a cross-reference attribute,
failing (Python `assert`) if it is already present or would self-refer. -/
def bindOneOther (st : QSt) (fi : Nat) (sel : Proc → Option Nat)
    (upd : Proc → Nat → Proc) (gi : Nat) : Option QSt :=
  match st[fi]? with
  | none => none
  | some f =>
      if (sel f).isSome then none
      else if fi = gi then none
      else some (st.set fi (upd f gi))

/-- Python `not mf` for `mf ∈ {False, True, 'measured'}` (source line 112):
a non-empty string is truthy, so `not 'measured'` is `False`. -/
def notMf : Mf → Mf
  | .off => .friendly
  | .friendly => .off
  | .measured => .off

/-- Source line 118: `True if mf == 'measured' else 'measured'`
(only evaluated when `mf` is truthy). -/
def otherMf : Mf → Mf
  | .off => .off
  | .friendly => .measured
  | .measured => .friendly

/-- Re-inject a resolved endianness as a recursive-call argument
(`bind_inverse_and_others` passes the concrete `'little'`/`'big'`). -/
def EndianArg.ofEndian : Endian → EndianArg
  | .little => .little
  | .big => .big

/-- Re-inject a normalized `mf` as a recursive-call argument. -/
def MfArg.ofMf : Mf → MfArg
  | .off => .off
  | .friendly => .friendly
  | .measured => .measured

/-- An argument triple for one call to `get_qft`. -/
abbrev QArgs := EndianArg × Bool × MfArg

/-- The resolved key of an argument triple (source lines 153-163: the
`'measure'` synonym followed by `auto`/`opposite` resolution). -/
def rkey (a : QArgs) : QKey :=
  (resolveEndian a.1 a.2.1 (normMf a.2.2), a.2.1, normMf a.2.2)

/-- Fueled interpreter for the body of `_get_qft` after argument resolution
(source lines 164-361) together with `bind_inverse_and_others` (lines
97-119).  Returns the heap index of the returned function and the updated
cache; `none` models a Python exception (`assert` failure) or fuel
exhaustion (which never occurs for the fuel used below).  On a cache miss
the function record is created, added to the cache, its example function
(for `mf == 'measured'`) is created and bound, and then the cross
references are computed by recursive calls to `_get_qft` — written here as
`getQftK fuel (rkey …)`, i.e. the recursive arguments go through the same
resolution prelude — each bound exactly once via `bindOneOther`; finally
`assert len (cache) <= 16`. -/
def getQftK : Nat → QKey → QSt → Option (Nat × QSt)
  | 0, _, _ => none
  | fuel + 1, k, st => do
      let (e, inverse, mf) := k
      let nm := funcname k
      let fC := lookupName st nm
      let exNm? : Option String :=
        if mf = .measured then some (exampleName k) else none
      let exC : Option Nat :=
        match exNm? with
        | some s => lookupName st s
        | none => none
      -- lines 209-212: `if fex_cached: assert f_cached`,
      -- `if not f_cached: assert not fex_cached`
      if exC.isSome && fC.isNone then none
      else
        match fC with
        | some fi => do
            -- cache hit (lines 213-218)
            let f ← st[fi]?
            match exNm? with
            | some _ =>
                -- `assert f_cached.__example__ is fex_cached`
                if f.exampleA = exC then some (fi, st) else none
            | none =>
                -- `assert not hasattr (f_cached, '__example__')`
                if f.exampleA = none then some (fi, st) else none
        | none => do
            -- cache miss: create and cache the function (lines 342-347)
            let fi := st.length
            let st1 := st ++ [{ name := nm }]
            -- example function creation and binding (lines 349-356)
            let st2 ←
              match exNm? with
              | some exNm =>
                  let exi := st1.length
                  let st2 := st1 ++ [{ name := exNm }]
                  bindOneOther st2 fi (·.exampleA)
                    (fun p g => { p with exampleA := some g }) exi
              | none => some st1
            -- bind_inverse_and_others (lines 97-119)
            let oppo : Endian := match e with | .little => .big | .big => .little
            let (gInv, st3) ← getQftK fuel
                                (rkey (.ofEndian oppo, !inverse, .ofMf mf)) st2
            let st4 ← bindOneOther st3 fi (·.invA)
                        (fun p g => { p with invA := some g }) gInv
            let (gOppE, st5) ← getQftK fuel
                                 (rkey (.ofEndian oppo, inverse, .ofMf mf)) st4
            let st6 ← bindOneOther st5 fi (·.oppEndianA)
                        (fun p g => { p with oppEndianA := some g }) gOppE
            let (gOppMf, st7) ← getQftK fuel
                                  (rkey (.ofEndian e, inverse,
                                         .ofMf (notMf mf))) st6
            let st8 ← bindOneOther st7 fi (·.oppMfA)
                        (fun p g => { p with oppMfA := some g }) gOppMf
            let st10 ←
              if mf = .off then some st8
              else do
                let (gOther, st9) ← getQftK fuel
                                      (rkey (.ofEndian e, inverse,
                                             .ofMf (otherMf mf))) st8
                bindOneOther st9 fi (·.otherMfA)
                  (fun p g => { p with otherMfA := some g }) gOther
            -- line 360: `assert len (cache) <= 16`
            if st10.length ≤ 16 then some (fi, st10) else none

/-- One call to the factory `get_qft` (source lines 121-361): resolve the
arguments (lines 153-163), then run the key-level body. -/
def getQft (fuel : Nat) (a : QArgs) (st : QSt) : Option (Nat × QSt) :=
  getQftK fuel (rkey a) st

/-- The canonical fuel used for every top-level call; large enough that the
interpreter never exhausts it (checked concretely below). -/
def qfuel : Nat := 32

/-- Process a list of `get_qft` calls starting from the given cache,
recording for each call the returned procedure index and the cache state
after the call. -/
def runCalls : List QArgs → QSt → Option (List (Nat × QSt))
  | [], _ => some []
  | a :: rest, st => do
      let (i, st') ← getQft qfuel a st
      let tail ← runCalls rest st'
      some ((i, st') :: tail)

/-- The full 16-entry cache reached after one call with resolved key `k`
(given as an explicit table; the theorems below verify that the
interpreter produces exactly this cache). -/
def fullSt : QKey → QSt
  | (.little, false, .off) =>
      [⟨"qft_leo", some 1, some 3, some 7, none, none⟩,
       ⟨"iqft_beo", some 0, some 2, some 6, none, none⟩,
       ⟨"iqft_leo", some 3, some 1, some 5, none, none⟩,
       ⟨"qft_beo", some 2, some 0, some 4, none, none⟩,
       ⟨"qft_mf_beo", some 5, some 7, some 3, some 14, none⟩,
       ⟨"iqft_mf_leo", some 4, some 6, some 2, some 12, none⟩,
       ⟨"iqft_mf_beo", some 7, some 5, some 1, some 10, none⟩,
       ⟨"qft_mf_leo", some 6, some 4, some 0, some 8, none⟩,
       ⟨"qft_m_leo", some 10, some 14, some 0, some 7, some 9⟩,
       ⟨"_qft_m_leo_example", none, none, none, none, none⟩,
       ⟨"iqft_m_beo", some 8, some 12, some 1, some 6, some 11⟩,
       ⟨"_iqft_m_beo_example", none, none, none, none, none⟩,
       ⟨"iqft_m_leo", some 14, some 10, some 2, some 5, some 13⟩,
       ⟨"_iqft_m_leo_example", none, none, none, none, none⟩,
       ⟨"qft_m_beo", some 12, some 8, some 3, some 4, some 15⟩,
       ⟨"_qft_m_beo_example", none, none, none, none, none⟩]
  | (.little, false, .friendly) =>
      [⟨"qft_mf_leo", some 1, some 3, some 7, some 14, none⟩,
       ⟨"iqft_mf_beo", some 0, some 2, some 6, some 12, none⟩,
       ⟨"iqft_mf_leo", some 3, some 1, some 5, some 10, none⟩,
       ⟨"qft_mf_beo", some 2, some 0, some 4, some 8, none⟩,
       ⟨"qft_beo", some 5, some 7, some 3, none, none⟩,
       ⟨"iqft_leo", some 4, some 6, some 2, none, none⟩,
       ⟨"iqft_beo", some 7, some 5, some 1, none, none⟩,
       ⟨"qft_leo", some 6, some 4, some 0, none, none⟩,
       ⟨"qft_m_beo", some 10, some 14, some 4, some 3, some 9⟩,
       ⟨"_qft_m_beo_example", none, none, none, none, none⟩,
       ⟨"iqft_m_leo", some 8, some 12, some 5, some 2, some 11⟩,
       ⟨"_iqft_m_leo_example", none, none, none, none, none⟩,
       ⟨"iqft_m_beo", some 14, some 10, some 6, some 1, some 13⟩,
       ⟨"_iqft_m_beo_example", none, none, none, none, none⟩,
       ⟨"qft_m_leo", some 12, some 8, some 7, some 0, some 15⟩,
       ⟨"_qft_m_leo_example", none, none, none, none, none⟩]
  | (.little, false, .measured) =>
      [⟨"qft_m_leo", some 2, some 6, some 11, some 12, some 1⟩,
       ⟨"_qft_m_leo_example", none, none, none, none, none⟩,
       ⟨"iqft_m_beo", some 0, some 4, some 10, some 13, some 3⟩,
       ⟨"_iqft_m_beo_example", none, none, none, none, none⟩,
       ⟨"iqft_m_leo", some 6, some 2, some 9, some 14, some 5⟩,
       ⟨"_iqft_m_leo_example", none, none, none, none, none⟩,
       ⟨"qft_m_beo", some 4, some 0, some 8, some 15, some 7⟩,
       ⟨"_qft_m_beo_example", none, none, none, none, none⟩,
       ⟨"qft_beo", some 9, some 11, some 15, none, none⟩,
       ⟨"iqft_leo", some 8, some 10, some 14, none, none⟩,
       ⟨"iqft_beo", some 11, some 9, some 13, none, none⟩,
       ⟨"qft_leo", some 10, some 8, some 12, none, none⟩,
       ⟨"qft_mf_leo", some 13, some 15, some 11, some 0, none⟩,
       ⟨"iqft_mf_beo", some 12, some 14, some 10, some 2, none⟩,
       ⟨"iqft_mf_leo", some 15, some 13, some 9, some 4, none⟩,
       ⟨"qft_mf_beo", some 14, some 12, some 8, some 6, none⟩]
  | (.little, true, .off) =>
      [⟨"iqft_leo", some 1, some 3, some 7, none, none⟩,
       ⟨"qft_beo", some 0, some 2, some 6, none, none⟩,
       ⟨"qft_leo", some 3, some 1, some 5, none, none⟩,
       ⟨"iqft_beo", some 2, some 0, some 4, none, none⟩,
       ⟨"iqft_mf_beo", some 5, some 7, some 3, some 14, none⟩,
       ⟨"qft_mf_leo", some 4, some 6, some 2, some 12, none⟩,
       ⟨"qft_mf_beo", some 7, some 5, some 1, some 10, none⟩,
       ⟨"iqft_mf_leo", some 6, some 4, some 0, some 8, none⟩,
       ⟨"iqft_m_leo", some 10, some 14, some 0, some 7, some 9⟩,
       ⟨"_iqft_m_leo_example", none, none, none, none, none⟩,
       ⟨"qft_m_beo", some 8, some 12, some 1, some 6, some 11⟩,
       ⟨"_qft_m_beo_example", none, none, none, none, none⟩,
       ⟨"qft_m_leo", some 14, some 10, some 2, some 5, some 13⟩,
       ⟨"_qft_m_leo_example", none, none, none, none, none⟩,
       ⟨"iqft_m_beo", some 12, some 8, some 3, some 4, some 15⟩,
       ⟨"_iqft_m_beo_example", none, none, none, none, none⟩]
  | (.little, true, .friendly) =>
      [⟨"iqft_mf_leo", some 1, some 3, some 7, some 14, none⟩,
       ⟨"qft_mf_beo", some 0, some 2, some 6, some 12, none⟩,
       ⟨"qft_mf_leo", some 3, some 1, some 5, some 10, none⟩,
       ⟨"iqft_mf_beo", some 2, some 0, some 4, some 8, none⟩,
       ⟨"iqft_beo", some 5, some 7, some 3, none, none⟩,
       ⟨"qft_leo", some 4, some 6, some 2, none, none⟩,
       ⟨"qft_beo", some 7, some 5, some 1, none, none⟩,
       ⟨"iqft_leo", some 6, some 4, some 0, none, none⟩,
       ⟨"iqft_m_beo", some 10, some 14, some 4, some 3, some 9⟩,
       ⟨"_iqft_m_beo_example", none, none, none, none, none⟩,
       ⟨"qft_m_leo", some 8, some 12, some 5, some 2, some 11⟩,
       ⟨"_qft_m_leo_example", none, none, none, none, none⟩,
       ⟨"qft_m_beo", some 14, some 10, some 6, some 1, some 13⟩,
       ⟨"_qft_m_beo_example", none, none, none, none, none⟩,
       ⟨"iqft_m_leo", some 12, some 8, some 7, some 0, some 15⟩,
       ⟨"_iqft_m_leo_example", none, none, none, none, none⟩]
  | (.little, true, .measured) =>
      [⟨"iqft_m_leo", some 2, some 6, some 11, some 12, some 1⟩,
       ⟨"_iqft_m_leo_example", none, none, none, none, none⟩,
       ⟨"qft_m_beo", some 0, some 4, some 10, some 13, some 3⟩,
       ⟨"_qft_m_beo_example", none, none, none, none, none⟩,
       ⟨"qft_m_leo", some 6, some 2, some 9, some 14, some 5⟩,
       ⟨"_qft_m_leo_example", none, none, none, none, none⟩,
       ⟨"iqft_m_beo", some 4, some 0, some 8, some 15, some 7⟩,
       ⟨"_iqft_m_beo_example", none, none, none, none, none⟩,
       ⟨"iqft_beo", some 9, some 11, some 15, none, none⟩,
       ⟨"qft_leo", some 8, some 10, some 14, none, none⟩,
       ⟨"qft_beo", some 11, some 9, some 13, none, none⟩,
       ⟨"iqft_leo", some 10, some 8, some 12, none, none⟩,
       ⟨"iqft_mf_leo", some 13, some 15, some 11, some 0, none⟩,
       ⟨"qft_mf_beo", some 12, some 14, some 10, some 2, none⟩,
       ⟨"qft_mf_leo", some 15, some 13, some 9, some 4, none⟩,
       ⟨"iqft_mf_beo", some 14, some 12, some 8, some 6, none⟩]
  | (.big, false, .off) =>
      [⟨"qft_beo", some 1, some 3, some 7, none, none⟩,
       ⟨"iqft_leo", some 0, some 2, some 6, none, none⟩,
       ⟨"iqft_beo", some 3, some 1, some 5, none, none⟩,
       ⟨"qft_leo", some 2, some 0, some 4, none, none⟩,
       ⟨"qft_mf_leo", some 5, some 7, some 3, some 14, none⟩,
       ⟨"iqft_mf_beo", some 4, some 6, some 2, some 12, none⟩,
       ⟨"iqft_mf_leo", some 7, some 5, some 1, some 10, none⟩,
       ⟨"qft_mf_beo", some 6, some 4, some 0, some 8, none⟩,
       ⟨"qft_m_beo", some 10, some 14, some 0, some 7, some 9⟩,
       ⟨"_qft_m_beo_example", none, none, none, none, none⟩,
       ⟨"iqft_m_leo", some 8, some 12, some 1, some 6, some 11⟩,
       ⟨"_iqft_m_leo_example", none, none, none, none, none⟩,
       ⟨"iqft_m_beo", some 14, some 10, some 2, some 5, some 13⟩,
       ⟨"_iqft_m_beo_example", none, none, none, none, none⟩,
       ⟨"qft_m_leo", some 12, some 8, some 3, some 4, some 15⟩,
       ⟨"_qft_m_leo_example", none, none, none, none, none⟩]
  | (.big, false, .friendly) =>
      [⟨"qft_mf_beo", some 1, some 3, some 7, some 14, none⟩,
       ⟨"iqft_mf_leo", some 0, some 2, some 6, some 12, none⟩,
       ⟨"iqft_mf_beo", some 3, some 1, some 5, some 10, none⟩,
       ⟨"qft_mf_leo", some 2, some 0, some 4, some 8, none⟩,
       ⟨"qft_leo", some 5, some 7, some 3, none, none⟩,
       ⟨"iqft_beo", some 4, some 6, some 2, none, none⟩,
       ⟨"iqft_leo", some 7, some 5, some 1, none, none⟩,
       ⟨"qft_beo", some 6, some 4, some 0, none, none⟩,
       ⟨"qft_m_leo", some 10, some 14, some 4, some 3, some 9⟩,
       ⟨"_qft_m_leo_example", none, none, none, none, none⟩,
       ⟨"iqft_m_beo", some 8, some 12, some 5, some 2, some 11⟩,
       ⟨"_iqft_m_beo_example", none, none, none, none, none⟩,
       ⟨"iqft_m_leo", some 14, some 10, some 6, some 1, some 13⟩,
       ⟨"_iqft_m_leo_example", none, none, none, none, none⟩,
       ⟨"qft_m_beo", some 12, some 8, some 7, some 0, some 15⟩,
       ⟨"_qft_m_beo_example", none, none, none, none, none⟩]
  | (.big, false, .measured) =>
      [⟨"qft_m_beo", some 2, some 6, some 11, some 12, some 1⟩,
       ⟨"_qft_m_beo_example", none, none, none, none, none⟩,
       ⟨"iqft_m_leo", some 0, some 4, some 10, some 13, some 3⟩,
       ⟨"_iqft_m_leo_example", none, none, none, none, none⟩,
       ⟨"iqft_m_beo", some 6, some 2, some 9, some 14, some 5⟩,
       ⟨"_iqft_m_beo_example", none, none, none, none, none⟩,
       ⟨"qft_m_leo", some 4, some 0, some 8, some 15, some 7⟩,
       ⟨"_qft_m_leo_example", none, none, none, none, none⟩,
       ⟨"qft_leo", some 9, some 11, some 15, none, none⟩,
       ⟨"iqft_beo", some 8, some 10, some 14, none, none⟩,
       ⟨"iqft_leo", some 11, some 9, some 13, none, none⟩,
       ⟨"qft_beo", some 10, some 8, some 12, none, none⟩,
       ⟨"qft_mf_beo", some 13, some 15, some 11, some 0, none⟩,
       ⟨"iqft_mf_leo", some 12, some 14, some 10, some 2, none⟩,
       ⟨"iqft_mf_beo", some 15, some 13, some 9, some 4, none⟩,
       ⟨"qft_mf_leo", some 14, some 12, some 8, some 6, none⟩]
  | (.big, true, .off) =>
      [⟨"iqft_beo", some 1, some 3, some 7, none, none⟩,
       ⟨"qft_leo", some 0, some 2, some 6, none, none⟩,
       ⟨"qft_beo", some 3, some 1, some 5, none, none⟩,
       ⟨"iqft_leo", some 2, some 0, some 4, none, none⟩,
       ⟨"iqft_mf_leo", some 5, some 7, some 3, some 14, none⟩,
       ⟨"qft_mf_beo", some 4, some 6, some 2, some 12, none⟩,
       ⟨"qft_mf_leo", some 7, some 5, some 1, some 10, none⟩,
       ⟨"iqft_mf_beo", some 6, some 4, some 0, some 8, none⟩,
       ⟨"iqft_m_beo", some 10, some 14, some 0, some 7, some 9⟩,
       ⟨"_iqft_m_beo_example", none, none, none, none, none⟩,
       ⟨"qft_m_leo", some 8, some 12, some 1, some 6, some 11⟩,
       ⟨"_qft_m_leo_example", none, none, none, none, none⟩,
       ⟨"qft_m_beo", some 14, some 10, some 2, some 5, some 13⟩,
       ⟨"_qft_m_beo_example", none, none, none, none, none⟩,
       ⟨"iqft_m_leo", some 12, some 8, some 3, some 4, some 15⟩,
       ⟨"_iqft_m_leo_example", none, none, none, none, none⟩]
  | (.big, true, .friendly) =>
      [⟨"iqft_mf_beo", some 1, some 3, some 7, some 14, none⟩,
       ⟨"qft_mf_leo", some 0, some 2, some 6, some 12, none⟩,
       ⟨"qft_mf_beo", some 3, some 1, some 5, some 10, none⟩,
       ⟨"iqft_mf_leo", some 2, some 0, some 4, some 8, none⟩,
       ⟨"iqft_leo", some 5, some 7, some 3, none, none⟩,
       ⟨"qft_beo", some 4, some 6, some 2, none, none⟩,
       ⟨"qft_leo", some 7, some 5, some 1, none, none⟩,
       ⟨"iqft_beo", some 6, some 4, some 0, none, none⟩,
       ⟨"iqft_m_leo", some 10, some 14, some 4, some 3, some 9⟩,
       ⟨"_iqft_m_leo_example", none, none, none, none, none⟩,
       ⟨"qft_m_beo", some 8, some 12, some 5, some 2, some 11⟩,
       ⟨"_qft_m_beo_example", none, none, none, none, none⟩,
       ⟨"qft_m_leo", some 14, some 10, some 6, some 1, some 13⟩,
       ⟨"_qft_m_leo_example", none, none, none, none, none⟩,
       ⟨"iqft_m_beo", some 12, some 8, some 7, some 0, some 15⟩,
       ⟨"_iqft_m_beo_example", none, none, none, none, none⟩]
  | (.big, true, .measured) =>
      [⟨"iqft_m_beo", some 2, some 6, some 11, some 12, some 1⟩,
       ⟨"_iqft_m_beo_example", none, none, none, none, none⟩,
       ⟨"qft_m_leo", some 0, some 4, some 10, some 13, some 3⟩,
       ⟨"_qft_m_leo_example", none, none, none, none, none⟩,
       ⟨"qft_m_beo", some 6, some 2, some 9, some 14, some 5⟩,
       ⟨"_qft_m_beo_example", none, none, none, none, none⟩,
       ⟨"iqft_m_leo", some 4, some 0, some 8, some 15, some 7⟩,
       ⟨"_iqft_m_leo_example", none, none, none, none, none⟩,
       ⟨"iqft_leo", some 9, some 11, some 15, none, none⟩,
       ⟨"qft_beo", some 8, some 10, some 14, none, none⟩,
       ⟨"qft_leo", some 11, some 9, some 13, none, none⟩,
       ⟨"iqft_beo", some 10, some 8, some 12, none, none⟩,
       ⟨"iqft_mf_beo", some 13, some 15, some 11, some 0, none⟩,
       ⟨"qft_mf_leo", some 12, some 14, some 10, some 2, none⟩,
       ⟨"qft_mf_beo", some 15, some 13, some 9, some 4, none⟩,
       ⟨"iqft_mf_leo", some 14, some 12, some 8, some 6, none⟩]

/-- The index a call with resolved key `k` returns once the cache is the
full cache seeded by resolved key `k0`. -/
def idxIn (k0 k : QKey) : Nat :=
  (lookupName (fullSt k0) (funcname k)).getD 0

/-- All twelve resolved keys. -/
def allQKeys : List QKey :=
  [Endian.little, .big].flatMap (fun e =>
    [false, true].flatMap (fun b =>
      [Mf.off, .friendly, .measured].map (fun m => (e, b, m))))

/-- Follow a cross-reference attribute from the procedure at index `i`. -/
def attrStep (st : QSt) (sel : Proc → Option Nat) (i : Nat) : Option Nat :=
  match st[i]? with
  | none => none
  | some p => sel p

/-- Composition of a cross-reference attribute with itself. -/
def chain2 (st : QSt) (sel : Proc → Option Nat) (i : Nat) : Option Nat :=
  (attrStep st sel i).bind (attrStep st sel)

/-- Default argument triple (used only as a `getD` default). -/
def qdflt : QArgs := (.auto, false, .off)

/-- Default output entry (used only as a `getD` default). -/
def odflt : Nat × QSt := (0, [])

/-- The recorded outputs of a call sequence started on the empty cache. -/
def runOuts (calls : List QArgs) : List (Nat × QSt) :=
  (runCalls calls []).getD []

/-- Boolean check that the procedure at index `i` carries exactly the
cross-reference attributes its mode prescribes (`mfoff` = the procedure's
`mf` is `off`, which has no `__other_mf__`). -/
def procAttrsSet (st : QSt) (i : Nat) (mfoff : Bool) : Bool :=
  match st[i]? with
  | none => false
  | some p =>
      p.invA.isSome && p.oppEndianA.isSome && p.oppMfA.isSome &&
      (if mfoff then p.otherMfA == none else p.otherMfA.isSome)

/-! ## Classical-bit accounting: src/physicsfront/qiskit/__init__.py -/

/-- A declared classical-bit label `(register_name, bit_index)` as found
in `res.header.clbit_labels`. -/
abbrev Label := String × Nat

/-- A key of the table built by `clbit_label_to_mii`: either a bare
register name (size-1 registers only) or a `(name, index)` pair, where
the index may be negative. -/
inductive CKey where
  | bare (name : String)
  | idx (name : String) (i : Int)
  deriving DecidableEq, Repr

/-- Python-dict assignment on an insertion-ordered association list:
update in place if the key is present, else append. -/
def dset {α β : Type} [DecidableEq α] (d : List (α × β)) (k : α) (v : β) :
    List (α × β) :=
  if d.any (fun e => e.1 == k) then
    d.map (fun e => if e.1 == k then (k, v) else e)
  else d ++ [(k, v)]

/-- Python-dict lookup. -/
def dget? {α β : Type} [DecidableEq α] (d : List (α × β)) (k : α) :
    Option β :=
  (d.find? (fun e => e.1 == k)).map (·.2)

/-- Sequential effectful map over `Except` (Python iteration order:
evaluate left to right, propagating the first exception). -/
def exMapM {α β ε : Type} (f : α → Except ε β) : List α → Except ε (List β)
  | [] => .ok []
  | a :: l => do
      let b ← f a
      let bs ← exMapM f l
      pure (b :: bs)

/-- Sequential effectful fold over `Except`. -/
def exFoldlM {α β ε : Type} (f : β → α → Except ε β) :
    β → List α → Except ε β
  | b, [] => .ok b
  | b, a :: l => do
      let b' ← f b a
      exFoldlM f b' l

/-- Error conditions surfaced by the accounting functions: `valueError`
carries the formatted message; the others model Python `KeyError`,
`TypeError` (from `tuple (int)`), `AssertionError` and `IndexError`. -/
inductive PErr where
  | valueError (msg : String)
  | keyError
  | typeError
  | assertError
  | indexError
  deriving DecidableEq, Repr

/-- Decidable equality of `Except` results (needed to settle concrete
runs by `decide`). -/
instance {ε α : Type} [DecidableEq ε] [DecidableEq α] :
    DecidableEq (Except ε α)
  | .ok a, .ok b =>
      if h : a = b then .isTrue (by rw [h])
      else .isFalse (fun hh => h (Except.ok.inj hh))
  | .ok _, .error _ => .isFalse (fun hh => Except.noConfusion hh)
  | .error _, .ok _ => .isFalse (fun hh => Except.noConfusion hh)
  | .error e, .error f =>
      if h : e = f then .isTrue (by rw [h])
      else .isFalse (fun hh => h (Except.error.inj hh))

/-- The loop state of the forward pass of `clbit_label_to_mii` (source
lines 347-363): the table built so far, the register-size dict, the
running memory-item position `i`, and `last_key`. -/
structure FSt where
  ans : List (CKey × Nat)
  size : List (String × Nat)
  i : Nat
  last : Option Label
  deriving DecidableEq, Repr

/-- One label step of the forward pass (source lines 352-361): on a label
whose index is 0 while `i ≠ 0`, a new register starts — record the size
of the previous register (if any) and skip one position for the space
separator — then assign the current position to the label. -/
def stepLabel (st : FSt) (l : Label) : FSt :=
  let st :=
    if l.2 = 0 ∧ st.i ≠ 0 then
      { st with
        size := match st.last with
          | some lk => dset st.size lk.1 (lk.2 + 1)
          | none => st.size
        i := st.i + 1 }
    else st
  { st with
    ans := dset st.ans (CKey.idx l.1 (l.2 : Int)) st.i
    last := some l
    i := st.i + 1 }

/-- Processing one sub-result (source lines 350-363): reset `last_key`,
walk its labels, then record the size of its final register. -/
def doRes (st : FSt) (labs : List Label) : FSt :=
  let st := { st with last := none }
  let st := labs.foldl stepLabel st
  match st.last with
  | some lk => { st with size := dset st.size lk.1 (lk.2 + 1) }
  | none => st

/-- `clbit_label_to_mii` (source lines 327-380) applied to the
per-sub-result label lists of a job result.  After the forward pass the
positions are reversed (`N - 1 - v`), negative aliases
`(name, index - size)` are added for every entry (`toextend`, with
`assert 0 < -index <= N`), and the bare register name is added for every
size-1 register.  Python `KeyError`/`AssertionError` become errors. -/
def clbit_label_to_mii (results : List (List Label)) :
    Except PErr (List (CKey × Nat)) := do
  let st := results.foldl doRes ⟨[], [], 0, none⟩
  let ans1 : List (CKey × Nat) :=
    if st.i = 0 then st.ans
    else st.ans.map (fun e => (e.1, st.i - 1 - e.2))
  let toextend ← exMapM (fun e => do
    match e.1 with
    | CKey.idx name index => do
        let n ←
          match dget? st.size name with
          | some n => pure n
          | none => throw PErr.keyError
        let index' := index - (n : Int)
        if 0 < -index' ∧ -index' ≤ (n : Int) then
          pure (CKey.idx name index', e.2)
        else throw PErr.assertError
    | CKey.bare _ => throw PErr.assertError) ans1
  let ans2 := toextend.foldl (fun a e => dset a e.1 e.2) ans1
  let ans3 ← exFoldlM (fun a e =>
    if e.2 = 1 then do
      match dget? a (CKey.idx e.1 0) with
      | some v => pure (dset a (CKey.bare e.1) v)
      | none => throw PErr.keyError
    else pure a) ans2 st.size
  pure ans3

/-- The error message raised by `memory_item_index` when a bare name
completes no — or more than one — register name (source lines 842-843). -/
def nameErrMsg (name : String) : String :=
  "Name '" ++ name ++
    "' does not complete a classical bit register name (uniquely)."

/-- Python substring test `name in regname`. -/
def isSubstrOf (p s : String) : Bool :=
  s.data.tails.any (fun t => p.data.isPrefixOf t)

/-- A job result as consumed by the accounting functions: per-sub-result
classical-bit labels (`res.header.clbit_labels`), the raw per-shot memory
items (`r.get_memory ()`), and the SDK-aggregated counts
(`r.get_counts ()`, passed through untouched). -/
structure JobResult where
  results : List (List Label)
  memory : List (List Char)
  counts : List (List Char × Nat)
  deriving Repr

/-- The register name carried by a table key or bit spec
(`key [0] if isinstance (key, tuple) else key`). -/
def ckeyName : CKey → String
  | CKey.bare n => n
  | CKey.idx n _ => n

/-- The set of known register names of a table (source lines 826-827);
Python builds a `set`, modelled as a deduplicated list. -/
def regnamesOf (t : List (CKey × Nat)) : List String :=
  (t.map (fun e => ckeyName e.1)).dedup

/-- Resolution of one classical-bit spec against the table (the body of
the `for spec in clbitspec` loop, source lines 829-846). -/
def resolveSpec (clabel2index : List (CKey × Nat)) (spec : CKey) :
    Except PErr Nat := do
  let name := ckeyName spec
  let regnames := regnamesOf clabel2index
  let regname ←
    if regnames.contains name then pure name
    else
      match regnames.filter (fun rn => isSubstrOf name rn) with
      | [rn] => pure rn
      | _ => throw (PErr.valueError (nameErrMsg name))
  let key := match spec with
    | CKey.bare _ => CKey.bare regname
    | CKey.idx _ i => CKey.idx regname i
  match dget? clabel2index key with
  | some v => pure v
  | none => throw PErr.keyError

/-- `memory_item_index` (source lines 809-847): resolve each classical-bit
spec — a bare name (`CKey.bare`) or a `(name, index)` pair (`CKey.idx`) —
to a memory item position.  A name that is not an exact register name is
accepted as a substring of exactly one register name; with zero or with
several substring completions the same `ValueError` is raised.  A single
spec returns a bare `int` (`Sum.inl`); several return a tuple
(`Sum.inr`). -/
def memory_item_index (r : JobResult) (clbitspec : List CKey) :
    Except PErr (Nat ⊕ List Nat) := do
  if clbitspec.isEmpty then
    throw (PErr.valueError
      ("At least one classical bit specification (clbitspec) must be provided."))
  else do
    let clabel2index ←
      match clbit_label_to_mii r.results with
      | .ok t => pure t
      | .error e => throw e
    let ans ← exMapM (resolveSpec clabel2index) clbitspec
    match ans with
    | [v] => pure (.inl v)
    | l => pure (.inr l)

/-- `take` (source lines 589-592): extract the character at position `i`
of memory item `k`, failing (`assert`) if it is the space separator;
out-of-range indexing is a Python `IndexError`. -/
def takeChar (k : List Char) (i : Nat) : Except PErr Char :=
  match k[i]? with
  | none => throw PErr.indexError
  | some c => if c = ' ' then throw PErr.assertError else pure c

/-- A `collections.Counter` built over an iterable, counting in order of
first occurrence. -/
def counterOf (l : List (List Char)) : List (List Char × Nat) :=
  l.foldl (fun c k =>
    if c.any (fun e => e.1 == k) then
      c.map (fun e => if e.1 == k then (e.1, e.2 + 1) else e)
    else c ++ [(k, 1)]) []

/-- `Counter.update` with a mapping: add the supplied counts in place,
appending missing keys. -/
def counterUpdate (c : List (List Char × Nat))
    (m : List (List Char × Nat)) : List (List Char × Nat) :=
  m.foldl (fun c e =>
    if c.any (fun x => x.1 == e.1) then
      c.map (fun x => if x.1 == e.1 then (x.1, x.2 + e.2) else x)
    else c ++ [e]) c

/-- `gather_counts` (source lines 540-619).  The compiled predicate (built
in the source from the predicate string by `expand`/`compile`/`eval` —
the Python expression evaluator is an external collaborator) is
abstracted as the boolean function it evaluates to; `keys` is either a
mapping (`Sum.inl`) or an iterable of keys (`Sum.inr`), and Python
`if keys:` treats an empty collection as absent. -/
def gather_counts (r : JobResult) (clbitspec : List CKey)
    (predicate : Option (List Char → Bool))
    (keys : Option (List (List Char × Nat) ⊕ List (List Char))) :
    Except PErr (List (List Char × Nat)) := do
  if clbitspec.isEmpty ∧ predicate.isNone then
    pure r.counts
  else do
    let indices : Option (List Nat) ←
      if clbitspec.isEmpty then pure none
      else do
        let inds ← memory_item_index r clbitspec
        -- source lines 595-598: for a single spec `indices` is an `int`
        -- (`assert isinstance (indices, int)` holds) and `tuple (indices)`
        -- raises `TypeError`; for several specs
        -- `assert isinstance (indices, tuple)` holds.
        if clbitspec.length = 1 then
          match inds with
          | .inl _ => throw PErr.typeError
          | .inr _ => throw PErr.assertError
        else
          match inds with
          | .inl _ => throw PErr.assertError
          | .inr l => pure (some l)
    let m := r.memory
    let it : Except PErr (List (List Char)) :=
      match predicate, indices with
      | some p, none => pure (m.filter p)
      | some p, some inds =>
          exMapM (fun k => exMapM (takeChar k) inds) (m.filter p)
      | none, some inds => exMapM (fun k => exMapM (takeChar k) inds) m
      | none, none => throw PErr.assertError
    let items ← it
    let ans := counterOf items
    match keys with
    | none => pure ans
    | some (.inl mp) =>
        if mp.isEmpty then pure ans else pure (counterUpdate ans mp)
    | some (.inr ks) =>
        if ks.isEmpty then pure ans
        else pure (counterUpdate ans (ks.foldl (fun d k => dset d k 0) []))

/-- Modelled from the spec: the reduction `gather_counts` is specified to
compute with bit specs and no predicate — for each raw per-shot outcome
string extract the characters at the resolved positions, concatenate them
in spec order, and tally occurrences into a frequency table.  (Characters
are total here via `getD`; the claims' hypotheses put every position in
range.) -/
def specReduce (m : List (List Char)) (ps : List Nat) :
    List (List Char × Nat) :=
  counterOf (m.map (fun k => ps.map (fun p => (k[p]?).getD ' ')))

/-! ## Predicate-notation expander: expand / tokenize
(src/physicsfront/qiskit/__init__.py lines 382-539) -/

/-- Python token types relevant to `tokenize` (further types are opaque
to the rewriting pass). -/
inductive TokType where
  | NAME
  | NUMBER
  | OP
  | STRING
  | NEWLINE
  | ENDMARKER
  | OTHER
  deriving DecidableEq, Repr

/-- A `tokenize.TokenInfo`: type, string, start `(line, col)`,
end `(line, col)`, and the source line (carried, never inspected). -/
structure Tok where
  typ : TokType
  str : String
  start : Nat × Nat
  stop : Nat × Nat
  line : String
  deriving DecidableEq, Repr

/-- Failures of the tokenize pass: an invalid accessor name
(a `ValueError` — note the source's f-string `{funcname:!r}` has an
invalid format spec and itself raises a `ValueError` at format time, so
either way a `ValueError` escapes before any output), an `assert`
failure, the `AttributeError` from pushing back a `None` lookahead
(reachable only for a stream that does not end with the standard
`NEWLINE`/`ENDMARKER` pair), and fuel exhaustion (never reached: each
iteration consumes at least one stream token). -/
inductive TErr where
  | badFuncname
  | assertError
  | attrError
  | fuelOut
  deriving DecidableEq, Repr

/-- `test_funcname` (source line 396):
`re.compile ('^[a-zA-Z_][a-z_A-Z0-9]*').match` — an anchored *prefix*
match, true iff the string begins with an ASCII letter or underscore
(the `*` part matches the empty string, so nothing else is checked). -/
def test_funcname (s : String) : Bool :=
  match s.data with
  | [] => false
  | c :: _ => c.isAlpha || c = '_'

/-- `test_number` (source line 397): `^[0-9]+$` — non-empty, all
digits. -/
def test_number (s : String) : Bool :=
  !s.data.isEmpty && s.data.all (fun c => c.isDigit)

/-- Modelled from the spec: a "valid identifier" in the claim's sense —
non-empty, beginning with a letter or underscore, every further
character a letter, digit or underscore. -/
def isValidIdent (s : String) : Bool :=
  match s.data with
  | [] => false
  | c :: rest =>
      (c.isAlpha || c = '_') && rest.all (fun d => d.isAlphanum || d = '_')

/-- `getti` (source lines 398-409): shift a token's columns by the
accumulated offset of its line(s); `assert lnum_e not in offset` when
the start line is unedited. -/
def getti (off : List (Nat × Nat)) (ti : Tok) : Except TErr Tok :=
  match dget? off ti.start.1 with
  | none =>
      if (dget? off ti.stop.1).isSome then .error .assertError else .ok ti
  | some o =>
      let stop := match dget? off ti.stop.1 with
        | some oe => (ti.stop.1, ti.stop.2 + oe)
        | none => ti.stop
      .ok { ti with start := (ti.start.1, ti.start.2 + o), stop := stop }

/-- Python `repr` restricted to the identifier strings appearing as NAME
tokens (no quotes or escapes inside): wrap in single quotes. -/
def pyRepr (s : String) : String := "'" ++ s ++ "'"

/-- `pretypes` (source line 394): NAME or STRING tokens can open the
classical-bit-info notation. -/
def isPretype : TokType → Bool
  | .NAME | .STRING => true
  | _ => false

/-- The lookahead decision of the rewriting pass (source lines 489-516):
returns the fetched `ti3`/`ti4` lookahead tokens (raw), whether a
trailing signed integer was recognized (`doing_number`), and the
remaining stream after the net pushbacks. -/
def tokLookahead (ln : Nat) (rest2 : List Tok) :
    Option Tok × Option Tok × Bool × List Tok :=
  match rest2 with
  | [] => (none, none, false, [])
  | t3 :: rest3 =>
      if t3.stop.1 = ln then
        if t3.typ = .OP ∧ t3.str = "-" then
          match rest3 with
          | [] => (some t3, none, false, t3 :: rest3)
          | t4 :: rest4 =>
              if t4.stop.1 = ln ∧ t4.typ = .NUMBER ∧
                  test_number t4.str = true then
                (some t3, some t4, true, rest4)
              else (some t3, some t4, false, t3 :: t4 :: rest4)
        else
          if t3.typ = .NUMBER ∧ test_number t3.str = true then
            (some t3, none, true, rest3)
          else (some t3, none, false, t3 :: rest3)
      else (some t3, none, false, t3 :: rest3)

/-- The expansion branch of the `_tokenize` loop (source lines 472-537),
entered once the adjusted token `ti` (a single-line NAME/STRING) is
followed by the raw magic-marker token `t2` on the same line: emit the
accessor-call tokens, update the `offset` dict, and return the remaining
stream after the lookahead's net pushbacks. -/
def tokExpand (fn : String) (off : List (Nat × Nat)) (ti t2 : Tok)
    (rest2 : List Tok) :
    Except TErr (List Tok × List (Nat × Nat) × List Tok) := do
  let regname := if ti.typ = .STRING then ti.str else pyRepr ti.str
  let ln := ti.start.1
  let i_s0 := ti.start.2
  let i_e := t2.stop.2     -- raw end column of the marker
  let _ ← getti off t2     -- line 480: `ti2 = getti (ti2, offset)`
  let i1 := i_s0 + fn.length
  let outName : Tok := ⟨.NAME, fn, (ln, i_s0), (ln, i1), ""⟩
  let i2 := i1 + 1
  let outLParen : Tok := ⟨.OP, "(", (ln, i1), (ln, i2), ""⟩
  let i3 := i2 + regname.length
  let outStr : Tok := ⟨.STRING, regname, (ln, i2), (ln, i3), ""⟩
  let (ot3, ot4, doingNumber, after) := tokLookahead ln rest2
  let i4 := i3 + 1
  -- line 518: `assert i > i_e + offset.get (ln, 0)`
  if ¬ (i4 > i_e + (dget? off ln).getD 0) then .error .assertError
  else
    let off1 := dset off ln (i4 - i_e)
    if doingNumber then
      match ot3 with
      | none => .error .assertError   -- line 525: `assert ti3 or ti4`
      | some t3 => do
          let outComma : Tok := ⟨.OP, ",", (ln, i3), (ln, i4), ""⟩
          let i_e2 := (ot4.getD t3).stop.2   -- raw end (line 526)
          let off2 := dset off1 ln (i4 - i_e + 1)  -- `offset [ln] += 1`
          let t3' ← getti off2 t3
          let t4' ← match ot4 with
            | some t4 => do
                let x ← getti off2 t4
                pure (some x)
            | none => pure (none : Option Tok)
          let lastT := t4'.getD t3'
          -- line 533: `assert _ == ln`
          if ¬ (lastT.stop.1 = ln) then .error .assertError
          else
            let i5 := lastT.stop.2 + 1
            let outRParen : Tok := ⟨.OP, ")", (ln, lastT.stop.2), (ln, i5), ""⟩
            -- line 536: `assert i > i_e`
            if ¬ (i5 > i_e2) then .error .assertError
            else
              let off3 := dset off2 ln (i5 - i_e2)
              pure (outName :: outLParen :: outStr :: outComma ::
                t3' :: ((match t4' with
                         | some t => [t]
                         | none => []) ++ [outRParen]), off3, after)
    else
      pure ([outName, outLParen, outStr,
             ⟨.OP, ")", (ln, i3), (ln, i4), ""⟩], off1, after)

/-- One iteration of the generator loop of `_tokenize` (source lines
452-537): process the next stream token `t0` (with the rest of the
stream behind it), returning the tokens yielded during this iteration,
the updated `offset` dict, and the remaining stream (the `returned`
pushback list is modelled by consing back onto the stream).  Errors are
the Python exceptions. -/
def tokStep (fn : String) (off : List (Nat × Nat)) (t0 : Tok) :
    List Tok → Except TErr (List Tok × List (Nat × Nat) × List Tok)
  | [] => do
      let ti ← getti off t0
      -- line 459: the regname token must be confined to one line
      if ¬ (isPretype ti.typ = true ∧ ti.start.1 = ti.stop.1) then
        pure ([ti], off, [])
      else
        -- StopIteration: `ti2 = None` is pushed back after yielding `ti`,
        -- and the next iteration crashes on `None.start`
        .error .attrError
  | t2 :: rest2 => do
      let ti ← getti off t0
      if ¬ (isPretype ti.typ = true ∧ ti.start.1 = ti.stop.1) then
        pure ([ti], off, t2 :: rest2)
      else if ¬ (t2.typ = .OP ∧ (t2.str = "|" ∨ t2.str = "@") ∧
                 t2.stop.1 = ti.start.1) then
        pure ([ti], off, t2 :: rest2)
      else
        tokExpand fn off ti t2 rest2

/-- The driver of the generator loop: run `tokStep` until the stream is
exhausted, concatenating the yielded tokens. -/
def tokLoop (fn : String) :
    Nat → List (Nat × Nat) → List Tok → Except TErr (List Tok)
  | 0, _, _ => .error .fuelOut
  | fuel + 1, off, stream =>
    match stream with
    | [] => .ok []
    | t0 :: rest => do
        let (emitted, off1, stream1) ← tokStep fn off t0 rest
        let out ← tokLoop fn fuel off1 stream1
        pure (emitted ++ out)

/-- `tokenize (s, funcname)` (source lines 435-537) at the token level:
check the accessor name, then run the rewriting loop over the token
stream that the standard-library `tokenize.generate_tokens` produced for
the source text (the stdlib lexer is an external collaborator; concrete
streams appear in the theorems).  `expand` is the stdlib `untokenize`
composed with this pass, so the expanded text tokenizes to exactly the
returned token list. -/
def pftokenize (fn : String) (stream : List Tok) : Except TErr (List Tok) :=
  if ¬ test_funcname fn then .error .badFuncname
  else tokLoop fn (stream.length + 1) [] stream

/-- The name-repr of a recognized register-name token (source lines
473-477): a STRING token is kept as is, a NAME token is wrapped by
`repr`. -/
def regnameOf (ti : Tok) : String :=
  if ti.typ = .STRING then ti.str else pyRepr ti.str

/-- The column one past the emitted `<accessor> ( <name-repr>` text. -/
def callEnd (fn : String) (ti : Tok) : Nat :=
  ti.start.2 + fn.length + 1 + (regnameOf ti).length

/-- The accessor-call opening emitted for one recognized match:
`<accessor> ( <name-repr>` with the positions the pass assigns. -/
def callPrefix (fn : String) (ln i_s0 : Nat) (regname : String) : List Tok :=
  [⟨.NAME, fn, (ln, i_s0), (ln, i_s0 + fn.length), ""⟩,
   ⟨.OP, "(", (ln, i_s0 + fn.length), (ln, i_s0 + fn.length + 1), ""⟩,
   ⟨.STRING, regname, (ln, i_s0 + fn.length + 1),
    (ln, i_s0 + fn.length + 1 + regname.length), ""⟩]

/-- The token stream of the source text `"a|0 and b@-1"` as produced by
`tokenize.generate_tokens`. -/
def exprTokens : List Tok :=
  [⟨.NAME, "a", (1, 0), (1, 1), "a|0 and b@-1"⟩,
   ⟨.OP, "|", (1, 1), (1, 2), "a|0 and b@-1"⟩,
   ⟨.NUMBER, "0", (1, 2), (1, 3), "a|0 and b@-1"⟩,
   ⟨.NAME, "and", (1, 4), (1, 7), "a|0 and b@-1"⟩,
   ⟨.NAME, "b", (1, 8), (1, 9), "a|0 and b@-1"⟩,
   ⟨.OP, "@", (1, 9), (1, 10), "a|0 and b@-1"⟩,
   ⟨.OP, "-", (1, 10), (1, 11), "a|0 and b@-1"⟩,
   ⟨.NUMBER, "1", (1, 11), (1, 12), "a|0 and b@-1"⟩,
   ⟨.NEWLINE, "", (1, 12), (1, 13), ""⟩,
   ⟨.ENDMARKER, "", (2, 0), (2, 0), ""⟩]

/-- The token stream of the source text `"a    |0"` (four spaces between
the name and the marker). -/
def spacedTokens : List Tok :=
  [⟨.NAME, "a", (1, 0), (1, 1), "a    |0"⟩,
   ⟨.OP, "|", (1, 5), (1, 6), "a    |0"⟩,
   ⟨.NUMBER, "0", (1, 6), (1, 7), "a    |0"⟩,
   ⟨.NEWLINE, "", (1, 7), (1, 8), ""⟩,
   ⟨.ENDMARKER, "", (2, 0), (2, 0), ""⟩]

/-- The labels a declared register contributes to `clbit_labels`. -/
def regLabels (r : String × Nat) : List Label :=
  (List.range r.2).map (fun t => (r.1, t))

/-- The label list of one sub-result declaring the given registers. -/
def resLabels (rs : List (String × Nat)) : List Label :=
  rs.flatMap regLabels

/-- All registers of a job result, in declaration order. -/
def flatRegs (rss : List (List (String × Nat))) : List (String × Nat) :=
  rss.flatMap id

/-- Total declared classical-bit count. -/
def sumS (rs : List (String × Nat)) : Nat := (rs.map Prod.snd).sum

/-- Forward entries of one register: keys `(n, a+u)`, positions `i+u`. -/
def chunk (n : String) : Nat → Nat → Nat → List (CKey × Nat)
  | _, _, 0 => []
  | a, i, b + 1 => (CKey.idx n (a : Int), i) :: chunk n (a + 1) (i + 1) b

/-- Forward-pass entries of a register list started at position `i`. -/
def fwdAns : Nat → List (String × Nat) → List (CKey × Nat)
  | _, [] => []
  | i, r :: rest =>
      chunk r.1 0 (if i = 0 then i else i + 1) r.2 ++
        fwdAns ((if i = 0 then i else i + 1) + r.2) rest

/-- Final value of the running position counter. -/
def fwdI : Nat → List (String × Nat) → Nat
  | i, [] => i
  | i, r :: rest => fwdI ((if i = 0 then i else i + 1) + r.2) rest

/-- The forward positions skipped for the space separators. -/
def seps : Nat → List (String × Nat) → List Nat
  | _, [] => []
  | i, r :: rest =>
      (if i = 0 then [] else [i]) ++
        seps ((if i = 0 then i else i + 1) + r.2) rest

/-- Recording the previous register's size (source lines 356-358). -/
def recSize (size : List (String × Nat)) : Option Label →
    List (String × Nat)
  | some lk => dset size lk.1 (lk.2 + 1)
  | none => size

/-- The size dict built by the forward pass. -/
def fwdSize : List (String × Nat) → Nat → Option Label →
    List (String × Nat) → List (String × Nat)
  | size, _, _, [] => size
  | size, i, lst, r :: rest =>
      fwdSize (if i = 0 then size else recSize size lst)
        ((if i = 0 then i else i + 1) + r.2) (some (r.1, r.2 - 1)) rest

/-- The `last_key` tracker of the forward pass. -/
def fwdLast : Option Label → List (String × Nat) → Option Label
  | lst, [] => lst
  | _, r :: rest => fwdLast (some (r.1, r.2 - 1)) rest

/-- The reversed (final) positions of the forward entries. -/
def revAns (rss : List (List (String × Nat))) : List (CKey × Nat) :=
  (fwdAns 0 (flatRegs rss)).map
    (fun e => (e.1, fwdI 0 (flatRegs rss) - 1 - e.2))

/-- The negative-alias transform of a table key (`toextend`). -/
def negKey (szd : List (String × Nat)) : CKey → CKey
  | CKey.idx n t => CKey.idx n (t - ((dget? szd n).getD 0 : Int))
  | CKey.bare n => CKey.bare n

/-- The negative-alias entries. -/
def negAns (rss : List (List (String × Nat))) : List (CKey × Nat) :=
  (revAns rss).map (fun e => (negKey (flatRegs rss) e.1, e.2))

/-- The bare-name entries for size-1 registers. -/
def bareAns (rss : List (List (String × Nat))) : List (CKey × Nat) :=
  (flatRegs rss).filterMap (fun r =>
    if r.2 = 1 then
      some (CKey.bare r.1, (dget? (revAns rss) (CKey.idx r.1 0)).getD 0)
    else none)

/-- The expected full table of `clbit_label_to_mii`. -/
def tableOf (rss : List (List (String × Nat))) : List (CKey × Nat) :=
  revAns rss ++ negAns rss ++ bareAns rss

/-- Values of the non-negative-index entries, in table order. -/
def nonnegVals (t : List (CKey × Nat)) : List Nat :=
  t.filterMap (fun e => match e.1 with
    | CKey.idx _ i => if 0 ≤ i then some e.2 else none
    | CKey.bare _ => none)

/-- The final (reversed) positions of the separator slots. -/
def revSeps (rss : List (List (String × Nat))) : List Nat :=
  (seps 0 (flatRegs rss)).map (fun v => fwdI 0 (flatRegs rss) - 1 - v)

/-! ## Theorems: QFT factory -/

set_option maxHeartbeats 4000000 in
/-- A first call with resolved key `k` on an empty cache returns the
procedure named `funcname k` and produces the full 16-entry cache
`fullSt k`. -/
theorem getQftK_empty : ∀ k : QKey,
    getQftK qfuel k [] = some (idxIn k k, fullSt k) := by
  decide

set_option maxHeartbeats 4000000 in
/-- A call on a full cache is a pure cache hit: it returns the index of the
procedure named after its resolved key and leaves the cache unchanged. -/
theorem getQftK_full : ∀ k0 k : QKey,
    getQftK qfuel k (fullSt k0) = some (idxIn k0 k, fullSt k0) := by
  decide

/-- Every full cache holds exactly 16 entries. -/
theorem fullSt_length : ∀ k : QKey, (fullSt k).length = 16 := by
  decide

/-- Processing further calls from a full cache leaves it unchanged and
returns, for each call, the index determined by its resolved key. -/
theorem runCalls_full (rest : List QArgs) (k0 : QKey) :
    runCalls rest (fullSt k0) =
      some (rest.map (fun a => (idxIn k0 (rkey a), fullSt k0))) := by
  induction rest with
  | nil => rfl
  | cons a rest ih =>
      have h : getQft qfuel a (fullSt k0) =
          some (idxIn k0 (rkey a), fullSt k0) := getQftK_full k0 (rkey a)
      simp [runCalls, h, ih]

/-- A non-empty call sequence on the empty cache succeeds: the first call
fills the cache completely and every call returns the procedure index
determined by its resolved key in that cache. -/
theorem runCalls_cons (a : QArgs) (rest : List QArgs) :
    runCalls (a :: rest) [] =
      some ((a :: rest).map
        (fun b => (idxIn (rkey a) (rkey b), fullSt (rkey a)))) := by
  have h0 : getQft qfuel a [] =
      some (idxIn (rkey a) (rkey a), fullSt (rkey a)) :=
    getQftK_empty (rkey a)
  simp [runCalls, h0, runCalls_full]

/-- `getD` through `map` at an in-range index. -/
theorem list_getD_map {α β : Type} (f : α → β) (l : List α) (j : Nat)
    (d : α) (d' : β) (hj : j < l.length) :
    (l.map f).getD j d' = f (l.getD j d) := by
  induction l generalizing j with
  | nil => simp at hj
  | cons a l ih =>
      cases j with
      | zero => rfl
      | succ j => exact ih j (by simpa using hj)

/-- C2: for every sequence of `get_qft` calls with contract-supported
arguments, the whole sequence succeeds, any two calls whose arguments
resolve (after `auto`/`opposite` normalization and the
`measure` → `measured` synonym) to the same `(output_endian, inverse, mf)`
key return the identical procedure object (the same heap index), and the
factory's cache never holds more than 16 entries at any point in the
sequence. -/
theorem c2_cache_idempotent_bounded (calls : List QArgs) (j1 j2 j : Nat)
    (h1 : j1 < calls.length) (h2 : j2 < calls.length)
    (hk : rkey (calls.getD j1 qdflt) = rkey (calls.getD j2 qdflt)) :
    (runCalls calls []).isSome = true ∧
    (runOuts calls).length = calls.length ∧
    ((runOuts calls).getD j1 odflt).1 = ((runOuts calls).getD j2 odflt).1 ∧
    ((runOuts calls).getD j odflt).2.length ≤ 16 := by
  match calls with
  | [] => simp at h1
  | a :: rest =>
      have hrun := runCalls_cons a rest
      have houts : runOuts (a :: rest) =
          (a :: rest).map
            (fun b => (idxIn (rkey a) (rkey b), fullSt (rkey a))) := by
        simp [runOuts, hrun]
      refine ⟨by simp [hrun], by simp [houts], ?_, ?_⟩
      · rw [houts, list_getD_map _ _ _ qdflt _ h1, list_getD_map _ _ _ qdflt _ h2]
        simp only []
        rw [hk]
      · by_cases hj : j < (a :: rest).length
        · rw [houts, list_getD_map _ _ _ qdflt _ hj]
          simp [fullSt_length]
        · rw [houts, List.getD_eq_default]
          · simp [odflt]
          · simpa using hj

/-- Witness for C2 at a concrete call sequence: the first and third calls
resolve to the same key (the first via `auto`, the third with the endian
given explicitly), so they return the identical procedure. -/
theorem c2_cache_idempotent_bounded_witness :
    (0 < ([((.auto : EndianArg), false, (.friendly : MfArg)),
           (.little, true, .measure), (.big, false, .friendly)] :
            List QArgs).length ∧
     2 < ([((.auto : EndianArg), false, (.friendly : MfArg)),
           (.little, true, .measure), (.big, false, .friendly)] :
            List QArgs).length) ∧
    ((runCalls [((.auto : EndianArg), false, (.friendly : MfArg)),
                (.little, true, .measure), (.big, false, .friendly)] []).isSome
        = true ∧
     (runOuts [((.auto : EndianArg), false, (.friendly : MfArg)),
               (.little, true, .measure), (.big, false, .friendly)]).length
        = 3 ∧
     ((runOuts [((.auto : EndianArg), false, (.friendly : MfArg)),
                (.little, true, .measure), (.big, false, .friendly)]).getD 0
        odflt).1 =
       ((runOuts [((.auto : EndianArg), false, (.friendly : MfArg)),
                  (.little, true, .measure), (.big, false, .friendly)]).getD 2
          odflt).1 ∧
     ((runOuts [((.auto : EndianArg), false, (.friendly : MfArg)),
                (.little, true, .measure), (.big, false, .friendly)]).getD 1
        odflt).2.length ≤ 16) :=
  ⟨⟨by decide, by decide⟩,
   c2_cache_idempotent_bounded
     [(.auto, false, .friendly), (.little, true, .measure),
      (.big, false, .friendly)]
     0 2 1 (by decide) (by decide) (by decide)⟩

set_option maxHeartbeats 4000000 in
/-- C3 (amended): for every procedure `f` returned by `get_qft` (any
resolved key `k`, in any reachable cache), `__opposite_endian__` and
`__inverse__` are involutive, `__opposite_mf__` is involutive for `off`-
and `friendly`-mode procedures while for a `measured`-mode procedure
`f.__opposite_mf__.__opposite_mf__` is `f.__other_mf__` (the friendly
variant, not `f`), `__other_mf__` is involutive for friendly-mode
procedures, no procedure is its own partner under any of the four
attributes, every attribute prescribed for the mode is assigned (at the
cache miss that created the procedure), and a cache hit returns the cached
procedure without modifying the cache (so attributes are never
reassigned). -/
theorem c3_cross_references_amended :
    (∀ k0 k : QKey,
      chain2 (fullSt k0) (·.invA) (idxIn k0 k) = some (idxIn k0 k) ∧
      chain2 (fullSt k0) (·.oppEndianA) (idxIn k0 k) = some (idxIn k0 k) ∧
      (k.2.2 ≠ .measured →
        chain2 (fullSt k0) (·.oppMfA) (idxIn k0 k) = some (idxIn k0 k)) ∧
      (k.2.2 = .measured →
        chain2 (fullSt k0) (·.oppMfA) (idxIn k0 k) =
          attrStep (fullSt k0) (·.otherMfA) (idxIn k0 k)) ∧
      (k.2.2 = .friendly →
        chain2 (fullSt k0) (·.otherMfA) (idxIn k0 k) = some (idxIn k0 k)) ∧
      attrStep (fullSt k0) (·.invA) (idxIn k0 k) ≠ some (idxIn k0 k) ∧
      attrStep (fullSt k0) (·.oppEndianA) (idxIn k0 k) ≠ some (idxIn k0 k) ∧
      attrStep (fullSt k0) (·.oppMfA) (idxIn k0 k) ≠ some (idxIn k0 k) ∧
      attrStep (fullSt k0) (·.otherMfA) (idxIn k0 k) ≠ some (idxIn k0 k) ∧
      procAttrsSet (fullSt k0) (idxIn k0 k) (k.2.2 == .off) = true) ∧
    (∀ (k0 : QKey) (a : QArgs),
      getQft qfuel a (fullSt k0) = some (idxIn k0 (rkey a), fullSt k0)) := by
  constructor
  · decide
  · intro k0 a
    exact getQftK_full k0 (rkey a)

/-- Witness for C3 (amended) at concrete keys: in the cache seeded by
`(little, false, friendly)`, the `off`-mode procedure for
`(big, true, off)` has an involutive `__opposite_mf__`, and the
`measured`-mode procedure for `(little, false, measured)` has
`__opposite_mf__ ∘ __opposite_mf__` equal to its `__other_mf__`. -/
theorem c3_cross_references_amended_witness :
    (((.big : Endian), true, (.off : Mf)).2.2 ≠ Mf.measured ∧
     chain2 (fullSt (.little, false, .friendly)) (·.oppMfA)
       (idxIn (.little, false, .friendly) (.big, true, .off)) =
       some (idxIn (.little, false, .friendly) (.big, true, .off))) ∧
    (((.little : Endian), false, (.measured : Mf)).2.2 = Mf.measured ∧
     chain2 (fullSt (.little, false, .friendly)) (·.oppMfA)
       (idxIn (.little, false, .friendly) (.little, false, .measured)) =
       attrStep (fullSt (.little, false, .friendly)) (·.otherMfA)
         (idxIn (.little, false, .friendly) (.little, false, .measured))) :=
  ⟨⟨by decide,
    (c3_cross_references_amended.1 (.little, false, .friendly)
      (.big, true, .off)).2.2.1 (by decide)⟩,
   ⟨by decide,
    (c3_cross_references_amended.1 (.little, false, .friendly)
      (.little, false, .measured)).2.2.2.1 (by decide)⟩⟩

set_option maxHeartbeats 2000000 in
/-- C3 counterexample: the claim as stated fails for `measured`-mode
procedures.  The procedure returned by
`get_qft (output_endian = 'auto', inverse = False, mf = 'measured')` — heap
index 0 of the cache it creates — has
`f.__opposite_mf__.__opposite_mf__` equal to the friendly variant (heap
index 12), not `f` itself. -/
theorem c3_counterexample :
    getQft qfuel (.auto, false, .measured) [] =
      some (0, fullSt (.little, false, .measured)) ∧
    chain2 (fullSt (.little, false, .measured)) (·.oppMfA) 0 = some 12 ∧
    ¬ chain2 (fullSt (.little, false, .measured)) (·.oppMfA) 0 = some 0 := by
  refine ⟨?_, by decide, by decide⟩
  decide

/-- C4: `get_qft` resolves the `output_endian` argument deterministically
as a function of `inverse` and `mf`: when `mf` is the single-qubit
sentinel (`'measured'`/`'measure'`), `auto` resolves to little and
`opposite`/`auto_opposite` resolve to big, independent of `inverse`; for
all other modes, `auto` resolves to little if `inverse` else big, and
`opposite`/`auto_opposite` resolve to big if `inverse` else little;
explicit `little`/`big` pass through unchanged. -/
theorem c4_output_endian_resolution :
    ∀ (inverse : Bool) (mfA : MfArg),
      (normMf mfA = .measured →
        resolveEndian .auto inverse (normMf mfA) = .little ∧
        resolveEndian .opposite inverse (normMf mfA) = .big ∧
        resolveEndian .auto_opposite inverse (normMf mfA) = .big) ∧
      (normMf mfA ≠ .measured →
        resolveEndian .auto inverse (normMf mfA) =
          (if inverse then .little else .big) ∧
        resolveEndian .opposite inverse (normMf mfA) =
          (if inverse then .big else .little) ∧
        resolveEndian .auto_opposite inverse (normMf mfA) =
          (if inverse then .big else .little)) ∧
      (∀ mf : Mf,
        resolveEndian .little inverse mf = .little ∧
        resolveEndian .big inverse mf = .big) := by
  decide

/-- Witness for C4 at concrete arguments: with the `'measure'` synonym and
`inverse = True`, `auto` still resolves to little; with `mf = False` and
`inverse = False`, `opposite` resolves to little. -/
theorem c4_output_endian_resolution_witness :
    (normMf .measure = .measured ∧
     resolveEndian .auto true (normMf .measure) = .little) ∧
    (normMf .off ≠ .measured ∧
     resolveEndian .opposite false (normMf .off) = .little) :=
  ⟨⟨by decide, ((c4_output_endian_resolution true .measure).1 (by decide)).1⟩,
   ⟨by decide,
    (((c4_output_endian_resolution false .off).2.1 (by decide)).2.1 :)⟩⟩

/-! ## Theorems: classical-bit accounting -/

/-- `pure` on `Except` is `ok`. -/
theorem ex_pure {ε α : Type} (a : α) : (pure a : Except ε α) = .ok a := rfl

/-- `throw` on `Except` is `error`. -/
theorem ex_throw {ε α : Type} (e : ε) : (throw e : Except ε α) = .error e := rfl

/-- Reduction of `Except` bind on a success value. -/
theorem ex_bind_ok {ε α β : Type} (a : α) (f : α → Except ε β) :
    (Except.ok a : Except ε α) >>= f = f a := rfl

/-- Reduction of `Except` bind on an error. -/
theorem ex_bind_error {ε α β : Type} (e : ε) (f : α → Except ε β) :
    (Except.error e : Except ε α) >>= f = .error e := rfl

/-- Reduction of `Except` map on a success value. -/
theorem ex_map_ok {ε α β : Type} (f : α → β) (a : α) :
    f <$> (Except.ok a : Except ε α) = .ok (f a) := rfl

/-- Reduction of `Except` map on an error. -/
theorem ex_map_error {ε α β : Type} (f : α → β) (e : ε) :
    f <$> (Except.error e : Except ε α) = .error e := rfl

/-- `exMapM` succeeds pointwise. -/
theorem exMapM_ok_of_forall {α β ε : Type} (f : α → Except ε β) (g : α → β) :
    ∀ l : List α, (∀ x ∈ l, f x = .ok (g x)) → exMapM f l = .ok (l.map g)
  | [], _ => rfl
  | a :: l, h => by
      have ha := h a (by simp)
      have hl := exMapM_ok_of_forall f g l (fun x hx => h x (by simp [hx]))
      simp [exMapM, ha, hl, ex_bind_ok]

/-- `exMapM` fails when some element fails. -/
theorem exMapM_error_of_exists {α β ε : Type} (f : α → Except ε β) :
    ∀ l : List α, (∃ x ∈ l, ∀ b, f x ≠ .ok b) → ∃ e, exMapM f l = .error e
  | [], h => by simp at h
  | a :: l, h => by
      obtain ⟨x, hx, hnb⟩ := h
      match hfa : f a with
      | .error e => exact ⟨e, by simp [exMapM, hfa, ex_bind_error]⟩
      | .ok b =>
          rcases List.mem_cons.mp hx with hx | hx
          · exact absurd hfa (hx ▸ hnb b)
          · obtain ⟨e, he⟩ := exMapM_error_of_exists f l ⟨x, hx, hnb⟩
            exact ⟨e, by simp [exMapM, hfa, he, ex_bind_ok, ex_bind_error]⟩

/-- `memory_item_index` on a single bare spec reduces to one spec
resolution. -/
theorem memory_item_index_single (r : JobResult) (t : List (CKey × Nat))
    (ht : clbit_label_to_mii r.results = .ok t) (spec : CKey) :
    memory_item_index r [spec] =
      match resolveSpec t spec with
      | .ok v => .ok (.inl v)
      | .error e => .error e := by
  simp only [memory_item_index, List.isEmpty_cons, ht]
  match hrs : resolveSpec t spec with
  | .ok v => simp [exMapM, hrs, ex_bind_ok]
  | .error e => simp [exMapM, hrs, ex_bind_ok, ex_bind_error]

/-- C6 (amended): when `memory_item_index` is given a register name that
is not an exact match, it accepts the name if it is a substring of
exactly one known register name; when no known register name contains it,
and likewise when more than one does, it fails with the same `ValueError`
whose message names the failing name — so the caller can tell which name
failed to resolve, but the not-found and ambiguity causes raise identical
errors. -/
theorem c6_substring_resolution_amended (r : JobResult)
    (t : List (CKey × Nat)) (name : String)
    (ht : clbit_label_to_mii r.results = .ok t)
    (hex : (regnamesOf t).contains name = false) :
    (((regnamesOf t).filter (fun rn => isSubstrOf name rn)).length ≠ 1 →
      memory_item_index r [CKey.bare name] =
        .error (PErr.valueError (nameErrMsg name))) ∧
    (∀ rn, (regnamesOf t).filter (fun rn => isSubstrOf name rn) = [rn] →
      memory_item_index r [CKey.bare name] =
        match dget? t (CKey.bare rn) with
        | some v => .ok (.inl v)
        | none => .error PErr.keyError) := by
  rw [memory_item_index_single r t ht]
  constructor
  · intro hlen
    have : resolveSpec t (CKey.bare name) =
        .error (PErr.valueError (nameErrMsg name)) := by
      simp only [resolveSpec, ckeyName, hex]
      match hf : (regnamesOf t).filter (fun rn => isSubstrOf name rn) with
      | [] => rfl
      | [rn] => exact absurd (by rw [hf]; rfl) hlen
      | rn :: rm :: rest => rfl
    rw [this]
  · intro rn hrn
    have : resolveSpec t (CKey.bare name) =
        match dget? t (CKey.bare rn) with
        | some v => .ok v
        | none => .error PErr.keyError := by
      match hd : dget? t (CKey.bare rn) with
      | some v =>
          have hnm : ¬ name ∈ regnamesOf t := by simpa using hex
          simp [resolveSpec, ckeyName, hnm, hrn, hd, ex_bind_ok, ex_pure]
      | none =>
          have hnm : ¬ name ∈ regnamesOf t := by simpa using hex
          simp [resolveSpec, ckeyName, hnm, hrn, hd, ex_bind_ok, ex_pure,
            ex_throw]
    rw [this]
    match hd : dget? t (CKey.bare rn) with
    | some v => simp [hd]
    | none => simp [hd]

/-- Witness for C6 (amended) at a concrete result declaring the single
register `"ab"`: the name `"c"` has no exact match and no substring
completion, and the call fails with the `ValueError` naming `"c"`. -/
theorem c6_substring_resolution_amended_witness :
    (clbit_label_to_mii (JobResult.mk [[("ab", 0)]] [] []).results =
        .ok [(CKey.idx "ab" 0, 0), (CKey.idx "ab" (-1), 0),
             (CKey.bare "ab", 0)] ∧
     (regnamesOf [(CKey.idx "ab" 0, 0), (CKey.idx "ab" (-1), 0),
                  (CKey.bare "ab", 0)]).contains "c" = false ∧
     ((regnamesOf [(CKey.idx "ab" 0, 0), (CKey.idx "ab" (-1), 0),
                   (CKey.bare "ab", 0)]).filter
        (fun rn => isSubstrOf "c" rn)).length ≠ 1) ∧
    memory_item_index (JobResult.mk [[("ab", 0)]] [] []) [CKey.bare "c"] =
      .error (PErr.valueError (nameErrMsg "c")) :=
  ⟨⟨by decide, by decide, by decide⟩,
   (c6_substring_resolution_amended (JobResult.mk [[("ab", 0)]] [] [])
      [(CKey.idx "ab" 0, 0), (CKey.idx "ab" (-1), 0), (CKey.bare "ab", 0)]
      "c" (by decide) (by decide)).1 (by decide)⟩

/-- C6 counterexample: the not-found failure (registers `ab`; name `c`
contained in none) and the ambiguity failure (registers `ca`, `cb`; name
`c` contained in both) raise the *identical* error value, so the two
causes are not distinguishable, contrary to the claim of a distinct
ambiguity error. -/
theorem c6_counterexample :
    memory_item_index (JobResult.mk [[("ab", 0)]] [] [])
        [CKey.bare "c"] =
      .error (PErr.valueError (nameErrMsg "c")) ∧
    memory_item_index (JobResult.mk [[("ca", 0), ("cb", 0)]] [] [])
        [CKey.bare "c"] =
      .error (PErr.valueError (nameErrMsg "c")) ∧
    memory_item_index (JobResult.mk [[("ab", 0)]] [] [])
        [CKey.bare "c"] =
      memory_item_index (JobResult.mk [[("ca", 0), ("cb", 0)]] [] [])
        [CKey.bare "c"] := by
  refine ⟨by decide, by decide, by decide⟩

/-- C9: a `gather_counts` call with exactly one bit spec (with or without
a predicate, and any `keys` argument) raises `TypeError` once the spec
resolves to a single integer position — `tuple (indices)` applied to an
`int` — and never returns a frequency table. -/
theorem c9_single_spec_type_error (r : JobResult) (spec : CKey)
    (pred : Option (List Char → Bool))
    (keys : Option (List (List Char × Nat) ⊕ List (List Char)))
    (n : Nat) (h : memory_item_index r [spec] = .ok (.inl n)) :
    gather_counts r [spec] pred keys = .error PErr.typeError ∧
    ∀ res, gather_counts r [spec] pred keys ≠ .ok res := by
  have hmain : gather_counts r [spec] pred keys = .error PErr.typeError := by
    simp [gather_counts, h, ex_bind_ok, ex_bind_error, ex_pure, ex_throw]
  exact ⟨hmain, fun res hres => by rw [hmain] at hres; cases hres⟩

/-- Witness for C9 at a concrete result (registers `a` ×3 and `b` ×1,
memory recorded): the single spec `"b"` resolves to position 0, and the
call raises `TypeError` rather than a table. -/
theorem c9_single_spec_type_error_witness :
    memory_item_index
        (JobResult.mk [[("a", 0), ("a", 1), ("a", 2), ("b", 0)]]
          ["0 110".data, "0 110".data, "1 001".data] [])
        [CKey.bare "b"] = .ok (.inl 0) ∧
    gather_counts
        (JobResult.mk [[("a", 0), ("a", 1), ("a", 2), ("b", 0)]]
          ["0 110".data, "0 110".data, "1 001".data] [])
        [CKey.bare "b"] none none = .error PErr.typeError :=
  ⟨by decide,
   (c9_single_spec_type_error
      (JobResult.mk [[("a", 0), ("a", 1), ("a", 2), ("b", 0)]]
        ["0 110".data, "0 110".data, "1 001".data] [])
      (CKey.bare "b") none none 0 (by decide)).1⟩

/-- C5 (amended): with at least two resolvable bit specs and no predicate,
`gather_counts` returns exactly the frequency table obtained by
extracting, for each raw per-shot outcome string, the characters at the
resolved positions in spec order and tallying occurrences; it raises an
error if any extracted character is the space separator.  (With exactly
one bit spec the call instead raises `TypeError`; see the
counterexample.) -/
theorem c5_gather_counts_amended (r : JobResult) (specs : List CKey)
    (ps : List Nat) (h2 : 2 ≤ specs.length)
    (hres : memory_item_index r specs = .ok (.inr ps)) :
    ((∀ k ∈ r.memory, ∀ p ∈ ps, ∃ c, k[p]? = some c ∧ c ≠ ' ') →
      gather_counts r specs none none = .ok (specReduce r.memory ps)) ∧
    ((∃ k ∈ r.memory, ∃ p ∈ ps, k[p]? = some ' ') →
      ∃ e, gather_counts r specs none none = .error e) := by
  have hne : specs.isEmpty = false := by
    cases specs with
    | nil => simp at h2
    | cons a l => rfl
  have hlen : ¬ specs.length = 1 := by omega
  constructor
  · intro hall
    have hinner : ∀ k ∈ r.memory,
        exMapM (takeChar k) ps = .ok (ps.map (fun p => (k[p]?).getD ' ')) := by
      intro k hk
      refine exMapM_ok_of_forall _ _ ps (fun p hp => ?_)
      obtain ⟨c, hc, hcs⟩ := hall k hk p hp
      simp [takeChar, hc, hcs, ex_pure]
    have houter : exMapM (fun k => exMapM (takeChar k) ps) r.memory =
        .ok (r.memory.map (fun k => ps.map (fun p => (k[p]?).getD ' '))) :=
      exMapM_ok_of_forall _ _ r.memory hinner
    simp [gather_counts, hne, hres, hlen, houter, specReduce, ex_bind_ok,
      ex_bind_error, ex_pure, ex_throw]
  · intro hbad
    obtain ⟨k, hk, p, hp, hsp⟩ := hbad
    have hkerr : ∃ e, exMapM (takeChar k) ps = .error e := by
      refine exMapM_error_of_exists _ ps ⟨p, hp, fun b hb => ?_⟩
      simp [takeChar, hsp] at hb
    have houter : ∃ e,
        exMapM (fun k => exMapM (takeChar k) ps) r.memory = .error e := by
      refine exMapM_error_of_exists _ r.memory ⟨k, hk, fun b hb => ?_⟩
      obtain ⟨e, he⟩ := hkerr
      rw [he] at hb
      cases hb
    obtain ⟨e, he⟩ := houter
    exact ⟨e, by simp [gather_counts, hne, hres, hlen, he, ex_bind_ok,
      ex_bind_error, ex_pure, ex_throw]⟩

/-- Witness for C5 (amended) on the spec's own example: registers
`[("a", 3), ("b", 1)]`, outcomes `"0 110"` ×2 and `"1 001"`; the specs
`(("a", 0), ("a", 1))` resolve to positions `(4, 3)` and the counts are
`{"01": 2, "10": 1}`. -/
theorem c5_gather_counts_amended_witness :
    (memory_item_index
        (JobResult.mk [[("a", 0), ("a", 1), ("a", 2), ("b", 0)]]
          ["0 110".data, "0 110".data, "1 001".data] [])
        [CKey.idx "a" 0, CKey.idx "a" 1] = .ok (.inr [4, 3])) ∧
    gather_counts
        (JobResult.mk [[("a", 0), ("a", 1), ("a", 2), ("b", 0)]]
          ["0 110".data, "0 110".data, "1 001".data] [])
        [CKey.idx "a" 0, CKey.idx "a" 1] none none =
      .ok (specReduce ["0 110".data, "0 110".data, "1 001".data] [4, 3]) :=
  ⟨by decide,
   (c5_gather_counts_amended
      (JobResult.mk [[("a", 0), ("a", 1), ("a", 2), ("b", 0)]]
        ["0 110".data, "0 110".data, "1 001".data] [])
      [CKey.idx "a" 0, CKey.idx "a" 1] [4, 3] (by decide) (by decide)).1
     (by decide)⟩

/-- C5 counterexample: the claim as stated covers *every non-empty*
sequence of resolvable bit specs, but a single resolvable spec makes
`gather_counts` raise `TypeError` instead of returning the tally. -/
theorem c5_counterexample :
    memory_item_index
        (JobResult.mk [[("c", 0), ("c", 1)]] ["01".data, "01".data] [])
        [CKey.idx "c" 0] = .ok (.inl 1) ∧
    gather_counts
        (JobResult.mk [[("c", 0), ("c", 1)]] ["01".data, "01".data] [])
        [CKey.idx "c" 0] none none = .error PErr.typeError := by
  refine ⟨by decide, by decide⟩

/-! ## Theorems: predicate-notation expander -/

/-- A bind whose continuation is pure propagates exactly the error of its
first action. -/
theorem ex_seq_error {ε α β : Type} (x : Except ε α) (f : α → β) (e : ε)
    (h : (x >>= fun a => pure (f a) : Except ε β) = .error e) :
    x = .error e := by
  cases x with
  | ok a => rw [ex_bind_ok] at h; cases h
  | error e' => rw [ex_bind_error] at h; injection h with h'; rw [h']

/-- Inversion for an `Except` bind that evaluated to an error. -/
theorem ex_bind_error_inv {ε α β : Type} (x : Except ε α)
    (g : α → Except ε β) (e : ε) (h : (x >>= g) = .error e) :
    x = .error e ∨ ∃ a, x = .ok a ∧ g a = .error e := by
  cases x with
  | ok a => exact Or.inr ⟨a, rfl, by rwa [ex_bind_ok] at h⟩
  | error e' =>
      rw [ex_bind_error] at h
      injection h with h'
      exact Or.inl (by rw [h'])

/-- `getti` never raises the invalid-accessor-name error. -/
theorem getti_ne_badFuncname (off : List (Nat × Nat)) (t : Tok) :
    getti off t ≠ .error .badFuncname := by
  unfold getti
  split
  · split
    · intro h; cases h
    · intro h; cases h
  · intro h; cases h

/-- The expansion branch never raises the invalid-accessor-name error. -/
theorem tokExpand_ne_badFuncname (fn : String) (off : List (Nat × Nat))
    (ti t2 : Tok) (rest2 : List Tok) :
    tokExpand fn off ti t2 rest2 ≠ .error .badFuncname := by
  intro h0
  simp only [tokExpand] at h0
  rcases ex_bind_error_inv _ _ _ h0 with hge | ⟨t2x, hg2, h⟩
  · exact getti_ne_badFuncname off t2 hge
  · clear h0 hg2
    by_cases hc : (ti.start.2 + fn.length + 1 +
        (if ti.typ = TokType.STRING then ti.str else pyRepr ti.str).length + 1 >
        t2.stop.2 + (dget? off ti.start.1).getD 0)
    · rw [if_neg (not_not_intro hc)] at h
      rcases hla : tokLookahead ti.start.1 rest2 with ⟨ot3, ot4, dn, after⟩
      rw [hla] at h
      simp only [] at h
      cases dn with
      | false => rw [if_neg (by simp)] at h; cases h
      | true =>
          rw [if_pos rfl] at h
          cases ot3 with
          | none => cases h
          | some t3 =>
              simp only [] at h
              rcases ex_bind_error_inv _ _ _ h with hge | ⟨t3x, hg3, h2⟩
              · exact getti_ne_badFuncname _ _ hge
              · clear h hg3
                cases ot4 with
                | none =>
                    simp only [ex_pure, ex_bind_ok, Option.getD] at h2
                    by_cases hL : (t3x.stop.1 = ti.start.1)
                    · rw [if_neg (not_not_intro hL)] at h2
                      by_cases hM : (t3x.stop.2 + 1 > t3.stop.2)
                      · rw [if_neg (not_not_intro hM)] at h2; cases h2
                      · rw [if_pos hM] at h2; cases h2
                    · rw [if_pos hL] at h2; cases h2
                | some t4 =>
                    simp only [] at h2
                    rcases ex_bind_error_inv _ _ _ h2 with hge | ⟨x, hx, h3⟩
                    · exact getti_ne_badFuncname _ _ hge
                    · clear h2 hx
                      rw [ex_pure, ex_bind_ok] at h3
                      simp only [Option.getD] at h3
                      by_cases hL : (x.stop.1 = ti.start.1)
                      · rw [if_neg (not_not_intro hL)] at h3
                        by_cases hM : (x.stop.2 + 1 > t4.stop.2)
                        · rw [if_neg (not_not_intro hM)] at h3; cases h3
                        · rw [if_pos hM] at h3; cases h3
                      · rw [if_pos hL] at h3; cases h3
    · rw [if_pos hc] at h
      cases h

/-- One rewriting step never raises the invalid-accessor-name error. -/
theorem tokStep_ne_badFuncname (fn : String) (off : List (Nat × Nat))
    (t0 : Tok) (rest : List Tok) :
    tokStep fn off t0 rest ≠ .error .badFuncname := by
  intro h
  cases rest with
  | nil =>
      simp only [tokStep] at h
      rcases ex_bind_error_inv _ _ _ h with hge | ⟨ti, hg, h2⟩
      · exact getti_ne_badFuncname off t0 hge
      · clear h hg
        split at h2
        · cases h2
        · cases h2
  | cons t2 rest2 =>
      simp only [tokStep] at h
      rcases ex_bind_error_inv _ _ _ h with hge | ⟨ti, hg, h2⟩
      · exact getti_ne_badFuncname off t0 hge
      · clear h hg
        split at h2
        · cases h2
        · split at h2
          · cases h2
          · exact tokExpand_ne_badFuncname fn off ti t2 rest2 h2

/-- The rewriting loop never raises the invalid-accessor-name error: that
check happens once, before any token is processed. -/
theorem tokLoop_ne_badFuncname (fn : String) :
    ∀ (fuel : Nat) (off : List (Nat × Nat)) (stream : List Tok),
      tokLoop fn fuel off stream ≠ .error .badFuncname := by
  intro fuel
  induction fuel with
  | zero => intro off stream h; cases h
  | succ fuel ih =>
      intro off stream h
      cases stream with
      | nil => cases h
      | cons t0 rest =>
        simp only [tokLoop] at h
        rcases ex_bind_error_inv _ _ _ h with hse | ⟨⟨emitted, off1, stream1⟩, hs, h⟩
        · exact tokStep_ne_badFuncname fn off t0 rest hse
        · exact ih off1 stream1 (ex_seq_error _ _ _ h)

/-- A valid identifier passes the source's (prefix-only) accessor-name
test. -/
theorem isValidIdent_imp_test (fn : String) (hv : isValidIdent fn = true) :
    test_funcname fn = true := by
  rcases hfd : fn.data with _ | ⟨c, rest⟩ <;>
    simp only [isValidIdent, test_funcname, hfd] at hv ⊢
  · cases hv
  · exact ((Bool.and_eq_true _ _).mp hv).1

/-- C7 (amended): `tokenize` (and hence `expand`) raises the
invalid-accessor-name `ValueError` exactly when the accessor name fails
the source's *prefix* test — the name does not begin with an ASCII letter
or underscore — and in that case before producing any rewritten output;
every valid identifier passes the test, and with a valid identifier this
error is never raised.  (The test accepts some non-identifiers too, such
as names with an invalid character after a valid first one; see the
counterexample.) -/
theorem c7_accessor_name_amended :
    (∀ (fn : String) (stream : List Tok), test_funcname fn = false →
      pftokenize fn stream = .error .badFuncname) ∧
    (∀ fn : String, isValidIdent fn = true → test_funcname fn = true) ∧
    (∀ (fn : String) (stream : List Tok), isValidIdent fn = true →
      pftokenize fn stream ≠ .error .badFuncname) := by
  refine ⟨?_, isValidIdent_imp_test, ?_⟩
  · intro fn stream hf
    simp [pftokenize, hf]
  · intro fn stream hv hbad
    rw [pftokenize, if_neg (by simp [isValidIdent_imp_test fn hv])] at hbad
    exact tokLoop_ne_badFuncname fn (stream.length + 1) [] stream hbad

/-- Witness for C7 (amended) at concrete names: `"1x"` fails the test and
the call errors before any output; `"foo_1"` is a valid identifier and
passes; with the default accessor `"_"` the error is never raised. -/
theorem c7_accessor_name_amended_witness :
    (test_funcname ("1x") = false ∧
     pftokenize ("1x") exprTokens = .error .badFuncname) ∧
    (isValidIdent ("foo_1") = true ∧ test_funcname ("foo_1") = true) ∧
    (isValidIdent ("_") = true ∧
     pftokenize ("_") exprTokens ≠ .error .badFuncname) :=
  ⟨⟨by decide, c7_accessor_name_amended.1 ("1x") exprTokens (by decide)⟩,
   ⟨by decide, c7_accessor_name_amended.2.1 ("foo_1") (by decide)⟩,
   ⟨by decide, c7_accessor_name_amended.2.2 ("_") exprTokens (by decide)⟩⟩

/-- C7 counterexample: `"a b"` is not a valid Python identifier, yet it
passes the prefix-anchored `test_funcname` check, and `tokenize` happily
produces rewritten output instead of raising an error. -/
theorem c7_counterexample :
    isValidIdent ("a b") = false ∧
    test_funcname ("a b") = true ∧
    (pftokenize ("a b") exprTokens).isOk = true := by
  refine ⟨by decide, by decide, by decide⟩

/-- Driver equation: one successful step prepends its yields. -/
theorem tokLoop_step (fn : String) (fuel : Nat) (off : List (Nat × Nat))
    (t0 : Tok) (rest em : List Tok) (off1 : List (Nat × Nat)) (s1 : List Tok)
    (hs : tokStep fn off t0 rest = .ok (em, off1, s1)) :
    tokLoop fn (fuel + 1) off (t0 :: rest) =
      (do
        let out ← tokLoop fn fuel off1 s1
        pure (em ++ out)) := by
  simp only [tokLoop, hs, ex_bind_ok]

/-- A token that is not a single-line NAME/STRING passes through with only
its columns adjusted. -/
theorem tokStep_pass_nonname (fn : String) (off : List (Nat × Nat))
    (t0 : Tok) (rest : List Tok) (ti : Tok) (hg : getti off t0 = .ok ti)
    (hnp : ¬ (isPretype ti.typ = true ∧ ti.start.1 = ti.stop.1)) :
    tokStep fn off t0 rest = .ok ([ti], off, rest) := by
  cases rest with
  | nil => simp only [tokStep, hg, ex_bind_ok]; rw [if_pos hnp]; rfl
  | cons t2 rest2 =>
      simp only [tokStep, hg, ex_bind_ok]; rw [if_pos hnp]; rfl

/-- A single-line NAME/STRING *not* followed by a same-line `|`/`@` marker
passes through unchanged (the lookahead token is pushed back). -/
theorem tokStep_pass_nonmarker (fn : String) (off : List (Nat × Nat))
    (t0 t2 : Tok) (rest2 : List Tok) (ti : Tok) (hg : getti off t0 = .ok ti)
    (hp : isPretype ti.typ = true ∧ ti.start.1 = ti.stop.1)
    (hn2 : ¬ (t2.typ = .OP ∧ (t2.str = "|" ∨ t2.str = "@") ∧
              t2.stop.1 = ti.start.1)) :
    tokStep fn off t0 (t2 :: rest2) = .ok ([ti], off, t2 :: rest2) := by
  simp only [tokStep, hg, ex_bind_ok]
  rw [if_neg (not_not_intro hp), if_pos hn2]
  rfl

/-- A single-line NAME/STRING followed by a same-line `|`/`@` marker is a
recognized match and enters the expansion branch. -/
theorem tokStep_enter_expand (fn : String) (off : List (Nat × Nat))
    (t0 t2 : Tok) (rest2 : List Tok) (ti : Tok) (hg : getti off t0 = .ok ti)
    (hp : isPretype ti.typ = true ∧ ti.start.1 = ti.stop.1)
    (h2 : t2.typ = .OP ∧ (t2.str = "|" ∨ t2.str = "@") ∧
          t2.stop.1 = ti.start.1) :
    tokStep fn off t0 (t2 :: rest2) = tokExpand fn off ti t2 rest2 := by
  simp only [tokStep, hg, ex_bind_ok]
  rw [if_neg (not_not_intro hp), if_neg (not_not_intro h2)]

/-- A recognized match with no trailing integer rewrites to the
one-argument call `accessor (name_repr)`, provided the rewritten text
extends beyond the marker's adjusted end column (the source's
assertion). -/
theorem tokExpand_one_arg (fn : String) (off : List (Nat × Nat))
    (ti t2 : Tok) (rest2 : List Tok) (t2x : Tok) (ot3 ot4 : Option Tok)
    (after : List Tok) (hg2 : getti off t2 = .ok t2x)
    (hla : tokLookahead ti.start.1 rest2 = (ot3, ot4, false, after))
    (hok : callEnd fn ti + 1 > t2.stop.2 + (dget? off ti.start.1).getD 0) :
    tokExpand fn off ti t2 rest2 =
      .ok (callPrefix fn ti.start.1 ti.start.2 (regnameOf ti) ++
             [⟨.OP, ")", (ti.start.1, callEnd fn ti),
               (ti.start.1, callEnd fn ti + 1), ""⟩],
           dset off ti.start.1 (callEnd fn ti + 1 - t2.stop.2),
           after) := by
  simp only [callEnd, regnameOf] at hok
  simp only [tokExpand, hg2, ex_bind_ok, hla]
  rw [if_neg (not_not_intro hok)]
  rw [if_neg (by simp)]
  rfl

/-- A recognized match with a trailing unsigned integer rewrites to the
two-argument call `accessor (name_repr, int)`, under the source's
assertions. -/
theorem tokExpand_plain_number (fn : String) (off : List (Nat × Nat))
    (ti t2 : Tok) (rest2 : List Tok) (t2x t3 : Tok) (after : List Tok)
    (t3x : Tok) (hg2 : getti off t2 = .ok t2x)
    (hla : tokLookahead ti.start.1 rest2 = (some t3, none, true, after))
    (hok : callEnd fn ti + 1 > t2.stop.2 + (dget? off ti.start.1).getD 0)
    (hg3 : getti (dset (dset off ti.start.1 (callEnd fn ti + 1 - t2.stop.2))
              ti.start.1 (callEnd fn ti + 1 - t2.stop.2 + 1)) t3 = .ok t3x)
    (hln : t3x.stop.1 = ti.start.1)
    (hok2 : t3x.stop.2 + 1 > t3.stop.2) :
    tokExpand fn off ti t2 rest2 =
      .ok (callPrefix fn ti.start.1 ti.start.2 (regnameOf ti) ++
             [⟨.OP, ",", (ti.start.1, callEnd fn ti),
               (ti.start.1, callEnd fn ti + 1), ""⟩,
              t3x,
              ⟨.OP, ")", (ti.start.1, t3x.stop.2),
               (ti.start.1, t3x.stop.2 + 1), ""⟩],
           dset (dset (dset off ti.start.1 (callEnd fn ti + 1 - t2.stop.2))
               ti.start.1 (callEnd fn ti + 1 - t2.stop.2 + 1))
             ti.start.1 (t3x.stop.2 + 1 - t3.stop.2),
           after) := by
  simp only [callEnd, regnameOf] at hok hg3
  simp only [tokExpand, hg2, ex_bind_ok, hla]
  rw [if_neg (not_not_intro hok), if_pos trivial]
  simp only [hg3, ex_bind_ok, ex_pure, Option.getD]
  rw [if_neg (not_not_intro hln)]
  rw [if_neg (not_not_intro hok2)]
  rfl

/-- A recognized match with a trailing minus sign and integer rewrites to
the two-argument call `accessor (name_repr, - int)`, under the source's
assertions. -/
theorem tokExpand_minus_number (fn : String) (off : List (Nat × Nat))
    (ti t2 : Tok) (rest2 : List Tok) (t2x t3 t4 : Tok) (after : List Tok)
    (t3x t4x : Tok) (hg2 : getti off t2 = .ok t2x)
    (hla : tokLookahead ti.start.1 rest2 = (some t3, some t4, true, after))
    (hok : callEnd fn ti + 1 > t2.stop.2 + (dget? off ti.start.1).getD 0)
    (hg3 : getti (dset (dset off ti.start.1 (callEnd fn ti + 1 - t2.stop.2))
              ti.start.1 (callEnd fn ti + 1 - t2.stop.2 + 1)) t3 = .ok t3x)
    (hg4 : getti (dset (dset off ti.start.1 (callEnd fn ti + 1 - t2.stop.2))
              ti.start.1 (callEnd fn ti + 1 - t2.stop.2 + 1)) t4 = .ok t4x)
    (hln : t4x.stop.1 = ti.start.1)
    (hok2 : t4x.stop.2 + 1 > t4.stop.2) :
    tokExpand fn off ti t2 rest2 =
      .ok (callPrefix fn ti.start.1 ti.start.2 (regnameOf ti) ++
             [⟨.OP, ",", (ti.start.1, callEnd fn ti),
               (ti.start.1, callEnd fn ti + 1), ""⟩,
              t3x, t4x,
              ⟨.OP, ")", (ti.start.1, t4x.stop.2),
               (ti.start.1, t4x.stop.2 + 1), ""⟩],
           dset (dset (dset off ti.start.1 (callEnd fn ti + 1 - t2.stop.2))
               ti.start.1 (callEnd fn ti + 1 - t2.stop.2 + 1))
             ti.start.1 (t4x.stop.2 + 1 - t4.stop.2),
           after) := by
  simp only [callEnd, regnameOf] at hok hg3 hg4
  simp only [tokExpand, hg2, ex_bind_ok, hla]
  rw [if_neg (not_not_intro hok), if_pos trivial]
  simp only [hg3, hg4, ex_bind_ok, ex_pure, Option.getD]
  rw [if_neg (not_not_intro hln)]
  rw [if_neg (not_not_intro hok2)]
  rfl

/-- C8: `expand` applied to `"a|0 and b@-1"` with the default accessor
name `"_"` produces text that tokenizes as the expression
`_('a', 0) and _('b', -1)`; in general, a recognized single-line
name/marker match with a trailing unsigned integer rewrites to the
two-argument call `accessor(name_repr, int)`, one with a trailing minus
sign and integer to `accessor(name_repr, - int)`, one with no trailing
integer to the one-argument call `accessor(name_repr)`, and all other
tokens pass through with only their columns adjusted by the accumulated
offsets of edited lines — each rewrite subject to the source's
assertions that the rewritten text extends strictly beyond the consumed
text on the same line. -/
theorem c8_expand_rewrites_amended :
    (pftokenize ("_") exprTokens =
      .ok [⟨.NAME, "_", (1, 0), (1, 1), ""⟩,
           ⟨.OP, "(", (1, 1), (1, 2), ""⟩,
           ⟨.STRING, "'a'", (1, 2), (1, 5), ""⟩,
           ⟨.OP, ",", (1, 5), (1, 6), ""⟩,
           ⟨.NUMBER, "0", (1, 7), (1, 8), "a|0 and b@-1"⟩,
           ⟨.OP, ")", (1, 8), (1, 9), ""⟩,
           ⟨.NAME, "and", (1, 10), (1, 13), "a|0 and b@-1"⟩,
           ⟨.NAME, "_", (1, 14), (1, 15), ""⟩,
           ⟨.OP, "(", (1, 15), (1, 16), ""⟩,
           ⟨.STRING, "'b'", (1, 16), (1, 19), ""⟩,
           ⟨.OP, ",", (1, 19), (1, 20), ""⟩,
           ⟨.OP, "-", (1, 21), (1, 22), "a|0 and b@-1"⟩,
           ⟨.NUMBER, "1", (1, 22), (1, 23), "a|0 and b@-1"⟩,
           ⟨.OP, ")", (1, 23), (1, 24), ""⟩,
           ⟨.NEWLINE, "", (1, 24), (1, 25), ""⟩,
           ⟨.ENDMARKER, "", (2, 0), (2, 0), ""⟩]) ∧
    ((pftokenize ("_") exprTokens).map (List.map (fun t => (t.typ, t.str))) =
      .ok [(.NAME, "_"), (.OP, "("), (.STRING, "'a'"), (.OP, ","),
           (.NUMBER, "0"), (.OP, ")"), (.NAME, "and"), (.NAME, "_"),
           (.OP, "("), (.STRING, "'b'"), (.OP, ","), (.OP, "-"),
           (.NUMBER, "1"), (.OP, ")"), (.NEWLINE, ""), (.ENDMARKER, "")]) ∧
    (∀ (fn : String) (off : List (Nat × Nat)) (t0 : Tok) (rest : List Tok)
       (ti : Tok), getti off t0 = .ok ti →
       ¬ (isPretype ti.typ = true ∧ ti.start.1 = ti.stop.1) →
       tokStep fn off t0 rest = .ok ([ti], off, rest)) ∧
    (∀ (fn : String) (off : List (Nat × Nat)) (t0 t2 : Tok)
       (rest2 : List Tok) (ti : Tok), getti off t0 = .ok ti →
       isPretype ti.typ = true ∧ ti.start.1 = ti.stop.1 →
       ¬ (t2.typ = .OP ∧ (t2.str = "|" ∨ t2.str = "@") ∧
          t2.stop.1 = ti.start.1) →
       tokStep fn off t0 (t2 :: rest2) = .ok ([ti], off, t2 :: rest2)) ∧
    (∀ (fn : String) (off : List (Nat × Nat)) (t0 t2 : Tok)
       (rest2 : List Tok) (ti : Tok), getti off t0 = .ok ti →
       isPretype ti.typ = true ∧ ti.start.1 = ti.stop.1 →
       t2.typ = .OP ∧ (t2.str = "|" ∨ t2.str = "@") ∧
         t2.stop.1 = ti.start.1 →
       tokStep fn off t0 (t2 :: rest2) = tokExpand fn off ti t2 rest2) ∧
    (∀ (fn : String) (off : List (Nat × Nat)) (ti t2 : Tok)
       (rest2 : List Tok) (t2x : Tok) (ot3 ot4 : Option Tok)
       (after : List Tok), getti off t2 = .ok t2x →
       tokLookahead ti.start.1 rest2 = (ot3, ot4, false, after) →
       callEnd fn ti + 1 > t2.stop.2 + (dget? off ti.start.1).getD 0 →
       tokExpand fn off ti t2 rest2 =
         .ok (callPrefix fn ti.start.1 ti.start.2 (regnameOf ti) ++
                [⟨.OP, ")", (ti.start.1, callEnd fn ti),
                  (ti.start.1, callEnd fn ti + 1), ""⟩],
              dset off ti.start.1 (callEnd fn ti + 1 - t2.stop.2),
              after)) ∧
    (∀ (fn : String) (off : List (Nat × Nat)) (ti t2 : Tok)
       (rest2 : List Tok) (t2x t3 : Tok) (after : List Tok) (t3x : Tok),
       getti off t2 = .ok t2x →
       tokLookahead ti.start.1 rest2 = (some t3, none, true, after) →
       callEnd fn ti + 1 > t2.stop.2 + (dget? off ti.start.1).getD 0 →
       getti (dset (dset off ti.start.1 (callEnd fn ti + 1 - t2.stop.2))
           ti.start.1 (callEnd fn ti + 1 - t2.stop.2 + 1)) t3 = .ok t3x →
       t3x.stop.1 = ti.start.1 →
       t3x.stop.2 + 1 > t3.stop.2 →
       tokExpand fn off ti t2 rest2 =
         .ok (callPrefix fn ti.start.1 ti.start.2 (regnameOf ti) ++
                [⟨.OP, ",", (ti.start.1, callEnd fn ti),
                  (ti.start.1, callEnd fn ti + 1), ""⟩,
                 t3x,
                 ⟨.OP, ")", (ti.start.1, t3x.stop.2),
                  (ti.start.1, t3x.stop.2 + 1), ""⟩],
              dset (dset (dset off ti.start.1
                    (callEnd fn ti + 1 - t2.stop.2))
                  ti.start.1 (callEnd fn ti + 1 - t2.stop.2 + 1))
                ti.start.1 (t3x.stop.2 + 1 - t3.stop.2),
              after)) ∧
    (∀ (fn : String) (off : List (Nat × Nat)) (ti t2 : Tok)
       (rest2 : List Tok) (t2x t3 t4 : Tok) (after : List Tok)
       (t3x t4x : Tok),
       getti off t2 = .ok t2x →
       tokLookahead ti.start.1 rest2 = (some t3, some t4, true, after) →
       callEnd fn ti + 1 > t2.stop.2 + (dget? off ti.start.1).getD 0 →
       getti (dset (dset off ti.start.1 (callEnd fn ti + 1 - t2.stop.2))
           ti.start.1 (callEnd fn ti + 1 - t2.stop.2 + 1)) t3 = .ok t3x →
       getti (dset (dset off ti.start.1 (callEnd fn ti + 1 - t2.stop.2))
           ti.start.1 (callEnd fn ti + 1 - t2.stop.2 + 1)) t4 = .ok t4x →
       t4x.stop.1 = ti.start.1 →
       t4x.stop.2 + 1 > t4.stop.2 →
       tokExpand fn off ti t2 rest2 =
         .ok (callPrefix fn ti.start.1 ti.start.2 (regnameOf ti) ++
                [⟨.OP, ",", (ti.start.1, callEnd fn ti),
                  (ti.start.1, callEnd fn ti + 1), ""⟩,
                 t3x, t4x,
                 ⟨.OP, ")", (ti.start.1, t4x.stop.2),
                  (ti.start.1, t4x.stop.2 + 1), ""⟩],
              dset (dset (dset off ti.start.1
                    (callEnd fn ti + 1 - t2.stop.2))
                  ti.start.1 (callEnd fn ti + 1 - t2.stop.2 + 1))
                ti.start.1 (t4x.stop.2 + 1 - t4.stop.2),
              after)) ∧
    (∀ (fn : String) (fuel : Nat) (off : List (Nat × Nat)) (t0 : Tok)
       (rest em : List Tok) (off1 : List (Nat × Nat)) (s1 : List Tok),
       tokStep fn off t0 rest = .ok (em, off1, s1) →
       tokLoop fn (fuel + 1) off (t0 :: rest) =
         (do
           let out ← tokLoop fn fuel off1 s1
           pure (em ++ out))) :=
  ⟨by decide, by decide, tokStep_pass_nonname, tokStep_pass_nonmarker,
   tokStep_enter_expand, tokExpand_one_arg, tokExpand_plain_number,
   tokExpand_minus_number,
   fun fn fuel off t0 rest em off1 s1 hs =>
     tokLoop_step fn fuel off t0 rest em off1 s1 hs⟩

/-- C8 counterexample: on the source `"a    |0"` (four spaces between the
register name and the marker) the claimed rewrite does not happen --
`tokenize` crashes on the assertion at source line 518, because the
rewritten call `_ ('a'` ends at column 5, not strictly beyond the
marker's end column 6. -/
theorem c8_counterexample :
    pftokenize ("_") spacedTokens = .error .assertError ∧
    ¬ (pftokenize ("_") spacedTokens).isOk = true := by
  refine ⟨by decide, ?_⟩
  intro h
  rw [show pftokenize ("_") spacedTokens = .error .assertError
        from by decide] at h
  exact absurd h (by decide)

/-- Witness for C8: the one-argument-rewrite conjunct applied at the
concrete match `a|` followed by a newline, with every hypothesis
discharged by evaluation. -/
theorem c8_expand_rewrites_amended_witness :
    (getti [] ⟨.OP, "|", (1, 1), (1, 2), ""⟩ =
        .ok ⟨.OP, "|", (1, 1), (1, 2), ""⟩ ∧
     tokLookahead 1 [⟨.NEWLINE, "", (1, 2), (1, 3), ""⟩] =
       (some ⟨.NEWLINE, "", (1, 2), (1, 3), ""⟩, none, false,
        [⟨.NEWLINE, "", (1, 2), (1, 3), ""⟩]) ∧
     callEnd ("_") ⟨.NAME, "a", (1, 0), (1, 1), ""⟩ + 1 >
       2 + (dget? ([] : List (Nat × Nat)) 1).getD 0) ∧
    tokExpand ("_") [] ⟨.NAME, "a", (1, 0), (1, 1), ""⟩
        ⟨.OP, "|", (1, 1), (1, 2), ""⟩ [⟨.NEWLINE, "", (1, 2), (1, 3), ""⟩] =
      .ok (callPrefix ("_") 1 0 (regnameOf ⟨.NAME, "a", (1, 0), (1, 1), ""⟩) ++
             [⟨.OP, ")", (1, callEnd ("_") ⟨.NAME, "a", (1, 0), (1, 1), ""⟩),
               (1, callEnd ("_") ⟨.NAME, "a", (1, 0), (1, 1), ""⟩ + 1), ""⟩],
           dset [] 1
             (callEnd ("_") ⟨.NAME, "a", (1, 0), (1, 1), ""⟩ + 1 - 2),
           [⟨.NEWLINE, "", (1, 2), (1, 3), ""⟩]) :=
  ⟨⟨by decide, by decide, by decide⟩,
   c8_expand_rewrites_amended.2.2.2.2.2.1 ("_") []
     ⟨.NAME, "a", (1, 0), (1, 1), ""⟩ ⟨.OP, "|", (1, 1), (1, 2), ""⟩
     [⟨.NEWLINE, "", (1, 2), (1, 3), ""⟩] ⟨.OP, "|", (1, 1), (1, 2), ""⟩
     (some ⟨.NEWLINE, "", (1, 2), (1, 3), ""⟩) none
     [⟨.NEWLINE, "", (1, 2), (1, 3), ""⟩]
     (by decide) (by decide) (by decide)⟩

/-! dict lemmas -/

theorem dset_append {α β : Type} [DecidableEq α] (d : List (α × β)) (k : α)
    (v : β) (h : ∀ e ∈ d, e.1 ≠ k) : dset d k v = d ++ [(k, v)] := by
  have ha : d.any (fun e => e.1 == k) = false := by
    rw [List.any_eq_false]
    intro e he
    simpa using h e he
  rw [dset, ha]
  simp

theorem dget?_append {α β : Type} [DecidableEq α] (xs ys : List (α × β))
    (k : α) : dget? (xs ++ ys) k =
      match dget? xs k with
      | some v => some v
      | none => dget? ys k := by
  induction xs with
  | nil => simp [dget?]
  | cons e xs ih =>
      cases hbe : (e.1 == k) with
      | true => simp [dget?, List.find?_cons, hbe]
      | false =>
          simp only [List.cons_append, dget?, List.find?_cons, hbe] at ih ⊢
          exact ih

theorem dget?_eq_none_of {α β : Type} [DecidableEq α] (xs : List (α × β))
    (k : α) (h : ∀ e ∈ xs, e.1 ≠ k) : dget? xs k = none := by
  rw [dget?, List.find?_eq_none.mpr]
  · rfl
  · intro e he
    simpa using h e he

theorem dget?_isSome_of_mem {α β : Type} [DecidableEq α] (xs : List (α × β))
    (k : α) (h : k ∈ xs.map Prod.fst) : ∃ v, dget? xs k = some v := by
  obtain ⟨e, he, hk⟩ := List.mem_map.mp h
  have : (xs.find? (fun x => x.1 == k)).isSome = true :=
    List.find?_isSome.mpr ⟨e, he, by simp [hk]⟩
  obtain ⟨x, hx⟩ := Option.isSome_iff_exists.mp this
  exact ⟨x.2, by rw [dget?, hx]; rfl⟩

theorem dget?_nodup_mem {α β : Type} [DecidableEq α] :
    ∀ (xs : List (α × β)), ((xs.map Prod.fst).Nodup) →
    ∀ e ∈ xs, dget? xs e.1 = some e.2
  | [], _, e, he => by cases he
  | x :: xs, hnd, e, he => by
      rcases List.mem_cons.mp he with rfl | he'
      · simp [dget?, List.find?_cons]
      · have hx : x.1 ≠ e.1 := by
          intro hc
          have : e.1 ∈ xs.map Prod.fst := List.mem_map.mpr ⟨e, he', rfl⟩
          rw [← hc] at this
          exact (List.nodup_cons.mp hnd).1 this
        have := dget?_nodup_mem xs (List.nodup_cons.mp hnd).2 e he'
        simp only [dget?, List.find?_cons] at this ⊢
        rw [show (x.1 == e.1) = false from by simpa using hx]
        exact this

theorem dget?_map_val {α β γ : Type} [DecidableEq α] (l : List (α × β))
    (f : β → γ) (k : α) :
    dget? (l.map (fun e => (e.1, f e.2))) k = (dget? l k).map f := by
  induction l with
  | nil => simp [dget?]
  | cons e l ih =>
      cases hbe : (e.1 == k) with
      | true => simp [dget?, List.find?_cons, hbe]
      | false =>
          simp only [List.map_cons, dget?, List.find?_cons, hbe] at ih ⊢
          exact ih

theorem foldl_dset_fresh {α β : Type} [DecidableEq α] :
    ∀ (l a : List (α × β)), (((a ++ l).map Prod.fst).Nodup) →
    l.foldl (fun acc e => dset acc e.1 e.2) a = a ++ l
  | [], a, _ => by simp
  | e :: l, a, h => by
      have h1 : ∀ x ∈ a, x.1 ≠ e.1 := by
        intro x hx hc
        have hd := List.disjoint_of_nodup_append (by simpa using h :
          (a.map Prod.fst ++ (e :: l).map Prod.fst).Nodup)
        exact hd (List.mem_map.mpr ⟨x, hx, rfl⟩)
          (by rw [hc]; exact List.mem_map.mpr ⟨e, by simp, rfl⟩)
      rw [List.foldl_cons, dset_append a e.1 e.2 h1]
      have := foldl_dset_fresh l (a ++ [(e.1, e.2)])
        (by simpa using h)
      rw [this]
      simp

/-! chunk lemmas -/

theorem chunk_keys (n : String) : ∀ (b a i : Nat),
    (chunk n a i b).map Prod.fst =
      (List.range' a b).map (fun t : Nat => CKey.idx n t)
  | 0, _, _ => rfl
  | b + 1, a, i => by
      simp [chunk, List.range'_succ, chunk_keys n b (a + 1) (i + 1)]

theorem chunk_snd (n : String) : ∀ (b a i : Nat),
    (chunk n a i b).map Prod.snd = List.range' i b
  | 0, _, _ => rfl
  | b + 1, a, i => by
      simp [chunk, List.range'_succ, chunk_snd n b (a + 1) (i + 1)]

theorem chunk_mem (n : String) : ∀ (b a i : Nat) (e : CKey × Nat),
    e ∈ chunk n a i b →
    ∃ u, u < b ∧ e = (CKey.idx n ((a + u : Nat) : Int), i + u)
  | 0, _, _, _, he => by cases he
  | b + 1, a, i, e, he => by
      rcases List.mem_cons.mp he with rfl | he'
      · exact ⟨0, Nat.succ_pos b, by simp⟩
      · obtain ⟨u, hu, he2⟩ := chunk_mem n b (a + 1) (i + 1) e he'
        refine ⟨u + 1, by omega, ?_⟩
        rw [he2, show a + 1 + u = a + (u + 1) from by omega,
          show i + 1 + u = i + (u + 1) from by omega]

theorem chunk_dget (n : String) : ∀ (b a i t : Nat), a ≤ t → t < a + b →
    dget? (chunk n a i b) (CKey.idx n (t : Int)) = some (i + (t - a))
  | 0, a, i, t, h1, h2 => by omega
  | b + 1, a, i, t, h1, h2 => by
      by_cases hat : a = t
      · subst hat
        simp [chunk, dget?, List.find?_cons]
      · have hne : (CKey.idx n (a : Int) == CKey.idx n (t : Int)) = false := by
          simp only [beq_eq_false_iff_ne, ne_eq, CKey.idx.injEq]
          intro hc
          exact hat (by exact_mod_cast hc.2)
        have ih := chunk_dget n b (a + 1) (i + 1) t (by omega) (by omega)
        simp only [chunk, dget?, List.find?_cons, hne] at ih ⊢
        rw [ih]
        congr 1
        omega

/-! fwdAns lemmas -/

theorem fwdAns_append : ∀ (rs1 rs2 : List (String × Nat)) (i : Nat),
    fwdAns i (rs1 ++ rs2) = fwdAns i rs1 ++ fwdAns (fwdI i rs1) rs2
  | [], _, _ => rfl
  | r :: rs1, rs2, i => by
      simp [fwdAns, fwdI, fwdAns_append rs1 rs2 _]

theorem fwdI_append : ∀ (rs1 rs2 : List (String × Nat)) (i : Nat),
    fwdI i (rs1 ++ rs2) = fwdI (fwdI i rs1) rs2
  | [], _, _ => rfl
  | r :: rs1, rs2, i => by
      simp [fwdI, fwdI_append rs1 rs2 _]

theorem fwdI_le : ∀ (rs : List (String × Nat)) (i : Nat), i ≤ fwdI i rs
  | [], _ => Nat.le_refl _
  | r :: rest, i => by
      refine Nat.le_trans ?_ (fwdI_le rest ((if i = 0 then i else i + 1) + r.2))
      split <;> omega

theorem fwdI_pos : ∀ (rs : List (String × Nat)) (i : Nat),
    rs ≠ [] → (∀ r ∈ rs, 1 ≤ r.2) → 1 ≤ fwdI i rs
  | [], _, h, _ => absurd rfl h
  | r :: rest, i, _, h1 => by
      have hr : 1 ≤ r.2 := h1 r (by simp)
      refine Nat.le_trans ?_ (fwdI_le rest _)
      split <;> omega

theorem fwdAns_mem : ∀ (rs : List (String × Nat)) (i : Nat) (e : CKey × Nat),
    e ∈ fwdAns i rs →
    ∃ r, r ∈ rs ∧ ∃ t, t < r.2 ∧ e.1 = CKey.idx r.1 (t : Int)
  | [], _, _, he => by cases he
  | r :: rest, i, e, he => by
      rcases List.mem_append.mp he with hc | hr
      · obtain ⟨u, hu, he2⟩ := chunk_mem r.1 r.2 0 _ e hc
        exact ⟨r, by simp, u, by simpa using hu, by rw [he2]; simp⟩
      · obtain ⟨r', hr', t, ht, he2⟩ := fwdAns_mem rest _ e hr
        exact ⟨r', by simp [hr'], t, ht, he2⟩

theorem fwdAns_keys : ∀ (rs : List (String × Nat)) (i : Nat),
    (fwdAns i rs).map Prod.fst =
      rs.flatMap (fun r =>
        (List.range r.2).map (fun t : Nat => CKey.idx r.1 t))
  | [], _ => rfl
  | r :: rest, i => by
      simp [fwdAns, chunk_keys, fwdAns_keys rest _, List.range_eq_range']

theorem nodup_idx_range (n : String) : ∀ (b a : Nat),
    ((List.range' a b).map (fun t : Nat => CKey.idx n t)).Nodup
  | 0, _ => by simp
  | b + 1, a => by
      rw [List.range'_succ, List.map_cons, List.nodup_cons]
      refine ⟨?_, nodup_idx_range n b (a + 1)⟩
      intro hmem
      obtain ⟨u, hu, he⟩ := List.mem_map.mp hmem
      have hua : u = a := by exact_mod_cast ((CKey.idx.injEq _ _ _ _).mp he).2
      have := List.mem_range'_1.mp hu
      omega

theorem fwdAns_keys_nodup : ∀ (rs : List (String × Nat)) (i : Nat),
    ((rs.map Prod.fst).Nodup) → ((fwdAns i rs).map Prod.fst).Nodup
  | [], _, _ => List.nodup_nil
  | r :: rest, i, hnd => by
      rw [fwdAns, List.map_append]
      refine List.Nodup.append ?_
        (fwdAns_keys_nodup rest _ (List.nodup_cons.mp hnd).2) ?_
      · rw [chunk_keys]
        exact nodup_idx_range r.1 r.2 0
      · intro k hk hk'
        obtain ⟨e, he, hke⟩ := List.mem_map.mp hk'
        obtain ⟨r', hr', t, ht, he1⟩ := fwdAns_mem rest _ e he
        rw [chunk_keys] at hk
        obtain ⟨u, hu, hku⟩ := List.mem_map.mp hk
        have hname : r.1 = r'.1 := by
          rw [← hke, he1] at hku
          exact congrArg ckeyName hku
        have : r'.1 ∈ rest.map Prod.fst := List.mem_map.mpr ⟨r', hr', rfl⟩
        rw [← hname] at this
        exact (List.nodup_cons.mp hnd).1 this

theorem fwdAns_dget_last : ∀ (rs : List (String × Nat)) (i : Nat)
    (r : String × Nat), ((rs.map Prod.fst).Nodup) → (∀ x ∈ rs, 1 ≤ x.2) →
    rs.getLast? = some r →
    dget? (fwdAns i rs) (CKey.idx r.1 ((r.2 - 1 : Nat) : Int)) =
      some (fwdI i rs - 1)
  | [], _, _, _, _, hl => by cases hl
  | [x], i, r, _, h1, hl => by
      have hx : x = r := by simpa [List.getLast?] using hl
      subst hx
      have hs : 1 ≤ x.2 := h1 x (by simp)
      simp only [fwdAns, fwdI, List.append_nil]
      rw [chunk_dget x.1 x.2 0 _ (x.2 - 1) (Nat.zero_le _) (by omega)]
      congr 1
      omega
  | x :: y :: rest, i, r, hnd, h1, hl => by
      have hl' : (y :: rest).getLast? = some r := by
        simpa [List.getLast?_cons_cons] using hl
      have hrmem : r ∈ y :: rest := List.mem_of_mem_getLast? hl'
      have hxname : x.1 ≠ r.1 := by
        intro hc
        have : r.1 ∈ (y :: rest).map Prod.fst := List.mem_map.mpr ⟨r, hrmem, rfl⟩
        rw [← hc] at this
        exact (List.nodup_cons.mp hnd).1 this
      rw [fwdAns, dget?_append]
      have hnone : dget? (chunk x.1 0 (if i = 0 then i else i + 1) x.2)
          (CKey.idx r.1 ((r.2 - 1 : Nat) : Int)) = none := by
        refine dget?_eq_none_of _ _ ?_
        intro e he hc
        obtain ⟨u, _, he2⟩ := chunk_mem x.1 x.2 0 _ e he
        rw [he2] at hc
        simp only [CKey.idx.injEq] at hc
        exact hxname hc.1
      rw [hnone]
      exact fwdAns_dget_last (y :: rest) _ r (List.nodup_cons.mp hnd).2
        (fun z hz => h1 z (by simp [hz])) hl'

/-! seps / fwdI arithmetic -/

theorem seps_length : ∀ (rs : List (String × Nat)) (i : Nat), i ≠ 0 →
    (∀ r ∈ rs, 1 ≤ r.2) → (seps i rs).length = rs.length
  | [], _, _, _ => rfl
  | r :: rest, i, hi, h1 => by
      rw [seps, if_neg hi, if_neg hi]
      have hr := h1 r (by simp)
      have := seps_length rest (i + 1 + r.2) (by omega)
        (fun x hx => h1 x (by simp [hx]))
      rw [List.length_append, this]
      simp [Nat.add_comm]

theorem seps_length0 : ∀ (rs : List (String × Nat)), rs ≠ [] →
    (∀ r ∈ rs, 1 ≤ r.2) → (seps 0 rs).length = rs.length - 1
  | [], h, _ => absurd rfl h
  | r :: rest, _, h1 => by
      rw [seps, if_pos rfl, if_pos rfl, List.nil_append]
      cases rest with
      | nil => rfl
      | cons y rest' =>
          have hr := h1 r (by simp)
          rw [seps_length (y :: rest') (0 + r.2) (by omega)
            (fun x hx => h1 x (by simp [hx]))]
          simp

theorem fwdI_formula : ∀ (rs : List (String × Nat)) (i : Nat), i ≠ 0 →
    fwdI i rs = i + sumS rs + rs.length
  | [], _, _ => by simp [fwdI, sumS]
  | r :: rest, i, hi => by
      rw [fwdI, if_neg hi, fwdI_formula rest (i + 1 + r.2) (by omega)]
      simp only [sumS, List.map_cons, List.sum_cons, List.length_cons]
      omega

theorem fwdI_zero : ∀ (rs : List (String × Nat)), rs ≠ [] →
    (∀ r ∈ rs, 1 ≤ r.2) → fwdI 0 rs = sumS rs + rs.length - 1
  | [], h, _ => absurd rfl h
  | r :: rest, _, h1 => by
      have hr := h1 r (by simp)
      rw [fwdI, if_pos rfl]
      cases rest with
      | nil => simp [fwdI, sumS]
      | cons y rest' =>
          rw [fwdI_formula (y :: rest') (0 + r.2) (by omega)]
          simp only [sumS, List.map_cons, List.sum_cons, List.length_cons]
          omega

/-! the forward permutation -/

open List in
theorem fwd_perm : ∀ (rs : List (String × Nat)) (i : Nat),
    (∀ r ∈ rs, 1 ≤ r.2) →
    ((fwdAns i rs).map Prod.snd ++ seps i rs).Perm
      (List.range' i (fwdI i rs - i))
  | [], i, _ => by simp [fwdAns, seps, fwdI]
  | r :: rest, i, h1 => by
      have ih := fwd_perm rest ((if i = 0 then i else i + 1) + r.2)
        (fun x hx => h1 x (by simp [hx]))
      rw [fwdAns, seps, fwdI, List.map_append, chunk_snd]
      by_cases hi : i = 0
      · subst hi
        simp only [reduceIte, List.nil_append] at ih ⊢
        have hle : 0 + r.2 ≤ fwdI (0 + r.2) rest := fwdI_le rest _
        have hsplit : List.range' 0 r.2 ++
            List.range' (0 + r.2) (fwdI (0 + r.2) rest - (0 + r.2)) =
            List.range' 0 (fwdI (0 + r.2) rest - 0) := by
          have h := List.range'_append 0 r.2
            (fwdI (0 + r.2) rest - (0 + r.2)) 1
          simp only [one_mul] at h
          rw [h]
          congr 1
          omega
        rw [← hsplit, List.append_assoc]
        exact List.Perm.append_left _ ih
      · rw [if_neg hi] at ih
        rw [if_neg hi, if_neg hi]
        have hle : i + 1 + r.2 ≤ fwdI (i + 1 + r.2) rest := fwdI_le rest _
        have hsplit2 : List.range' (i + 1) r.2 ++
            List.range' (i + 1 + r.2)
              (fwdI (i + 1 + r.2) rest - (i + 1 + r.2)) =
            List.range' (i + 1) (fwdI (i + 1 + r.2) rest - (i + 1)) := by
          have h := List.range'_append (i + 1) r.2
            (fwdI (i + 1 + r.2) rest - (i + 1 + r.2)) 1
          simp only [one_mul] at h
          rw [h]
          congr 1
          omega
        have hsplit1 : List.range' i (fwdI (i + 1 + r.2) rest - i) =
            i :: List.range' (i + 1)
              (fwdI (i + 1 + r.2) rest - (i + 1)) := by
          rw [show fwdI (i + 1 + r.2) rest - i =
            (fwdI (i + 1 + r.2) rest - (i + 1)) + 1 from by omega]
          rfl
        rw [hsplit1, ← hsplit2]
        calc List.range' (i + 1) r.2 ++
              (fwdAns (i + 1 + r.2) rest).map Prod.snd ++
              ([i] ++ seps (i + 1 + r.2) rest)
            = List.range' (i + 1) r.2 ++
              ((((fwdAns (i + 1 + r.2) rest).map Prod.snd ++ [i]) ++
                seps (i + 1 + r.2) rest)) := by
              simp [List.append_assoc]
          _ ~ List.range' (i + 1) r.2 ++
              ((([i] ++ (fwdAns (i + 1 + r.2) rest).map Prod.snd) ++
                seps (i + 1 + r.2) rest)) :=
              List.Perm.append_left _
                (List.Perm.append_right _ List.perm_append_comm)
          _ = (List.range' (i + 1) r.2 ++ [i]) ++
              ((fwdAns (i + 1 + r.2) rest).map Prod.snd ++
                seps (i + 1 + r.2) rest) := by
              simp [List.append_assoc]
          _ ~ ([i] ++ List.range' (i + 1) r.2) ++
              ((fwdAns (i + 1 + r.2) rest).map Prod.snd ++
                seps (i + 1 + r.2) rest) :=
              List.Perm.append_right _ List.perm_append_comm
          _ ~ i :: (List.range' (i + 1) r.2 ++
              List.range' (i + 1 + r.2)
                (fwdI (i + 1 + r.2) rest - (i + 1 + r.2))) :=
              List.Perm.cons i (List.Perm.append_left _ ih)

/-! the forward pass -/

theorem foldl_tail (n : String) : ∀ (b a : Nat) (st : FSt), 1 ≤ a →
    (∀ e ∈ st.ans, ∀ t : Nat, a ≤ t → e.1 ≠ CKey.idx n (t : Int)) →
    ((List.range' a b).map (fun t => (n, t))).foldl stepLabel st =
      { ans := st.ans ++ chunk n a st.i b,
        size := st.size,
        i := st.i + b,
        last := if b = 0 then st.last else some (n, a + b - 1) }
  | 0, a, st, _, _ => by cases st; simp [chunk]
  | b + 1, a, st, ha, hf => by
      rw [List.range'_succ, List.map_cons, List.foldl_cons]
      have hc : ¬((n, a).2 = 0 ∧ st.i ≠ 0) := by
        intro h
        have := h.1
        simp only at this
        omega
      have hstep : stepLabel st (n, a) =
          { ans := st.ans ++ [(CKey.idx n (a : Int), st.i)],
            size := st.size, i := st.i + 1, last := some (n, a) } := by
        cases st with
        | mk ans size i lst =>
            rw [stepLabel]
            simp only []
            rw [if_neg hc]
            simp only []
            rw [dset_append ans _ i (fun e he => hf e he a (Nat.le_refl a))]
      rw [hstep]
      have hf1 : ∀ e ∈ st.ans ++ [(CKey.idx n (a : Int), st.i)],
          ∀ t : Nat, a + 1 ≤ t → e.1 ≠ CKey.idx n (t : Int) := by
        intro e he t ht
        rcases List.mem_append.mp he with h | h
        · exact hf e h t (by omega)
        · simp only [List.mem_singleton] at h
          rw [h]
          intro hcc
          simp only [CKey.idx.injEq] at hcc
          have : a = t := by exact_mod_cast hcc.2
          omega
      have ih := foldl_tail n b (a + 1)
        { ans := st.ans ++ [(CKey.idx n (a : Int), st.i)],
          size := st.size, i := st.i + 1, last := some (n, a) }
        (by omega) hf1
      simp only [] at ih
      rw [ih]
      have hans : st.ans ++ [(CKey.idx n (a : Int), st.i)] ++
          chunk n (a + 1) (st.i + 1) b = st.ans ++ chunk n a st.i (b + 1) := by
        simp [chunk, List.append_assoc]
      have hi2 : st.i + 1 + b = st.i + (b + 1) := by omega
      have hlast : (if b = 0 then some (n, a) else some (n, a + 1 + b - 1)) =
          (if b + 1 = 0 then st.last else some (n, a + (b + 1) - 1)) := by
        cases b with
        | zero => simp
        | succ b' =>
            rw [if_neg (Nat.succ_ne_zero b'), if_neg (Nat.succ_ne_zero _)]
            simp only [Option.some.injEq, Prod.mk.injEq]
            exact ⟨by trivial, by omega⟩
      rw [hans, hi2, hlast]

theorem foldl_reg (r : String × Nat) (hs : 1 ≤ r.2) (st : FSt)
    (hf : ∀ e ∈ st.ans, ∀ t : Nat, e.1 ≠ CKey.idx r.1 (t : Int)) :
    (regLabels r).foldl stepLabel st =
      { ans := st.ans ++ chunk r.1 0 (if st.i = 0 then st.i else st.i + 1) r.2,
        size := if st.i = 0 then st.size else recSize st.size st.last,
        i := (if st.i = 0 then st.i else st.i + 1) + r.2,
        last := some (r.1, r.2 - 1) } := by
  obtain ⟨n, s⟩ := r
  simp only at hs hf ⊢
  obtain ⟨s', rfl⟩ : ∃ s', s = s' + 1 := ⟨s - 1, by omega⟩
  rw [regLabels]
  simp only [List.range_eq_range', List.range'_succ, List.map_cons,
    List.foldl_cons]
  have hf0 : ∀ e ∈ st.ans, e.1 ≠ CKey.idx n ((0 : Nat) : Int) :=
    fun e he => hf e he 0
  by_cases hi : st.i = 0
  · have hstep : stepLabel st (n, 0) =
        { ans := st.ans ++ [(CKey.idx n ((0 : Nat) : Int), st.i)],
          size := st.size, i := st.i + 1, last := some (n, 0) } := by
      cases st with
      | mk ans size i lst =>
          rw [stepLabel]
          simp only []
          rw [if_neg (by simp only at hi ⊢; omega)]
          simp only []
          rw [dset_append ans _ i (by simpa using hf0)]
    rw [hstep]
    have ih := foldl_tail n s' 1
      { ans := st.ans ++ [(CKey.idx n ((0 : Nat) : Int), st.i)],
        size := st.size, i := st.i + 1, last := some (n, 0) }
      (Nat.le_refl 1)
      (by
        intro e he t ht
        rcases List.mem_append.mp he with h | h
        · exact hf e h t
        · simp only [List.mem_singleton] at h
          rw [h]
          intro hcc
          simp only [CKey.idx.injEq] at hcc
          have : (0 : Nat) = t := by exact_mod_cast hcc.2
          omega)
    simp only [] at ih
    rw [ih]
    rw [if_pos hi, if_pos hi]
    have hans : st.ans ++ [(CKey.idx n ((0 : Nat) : Int), st.i)] ++
        chunk n 1 (st.i + 1) s' = st.ans ++ chunk n 0 st.i (s' + 1) := by
      simp [chunk, List.append_assoc]
    have hi2 : st.i + 1 + s' = st.i + (s' + 1) := by omega
    have hlast : (if s' = 0 then some (n, 0) else some (n, 1 + s' - 1)) =
        some (n, s' + 1 - 1) := by
      cases s' with
      | zero => simp
      | succ s'' =>
          rw [if_neg (Nat.succ_ne_zero s'')]
          simp only [Option.some.injEq, Prod.mk.injEq]
          exact ⟨by trivial, by omega⟩
    rw [hans, hi2, hlast]
  · have hstep : stepLabel st (n, 0) =
        { ans := st.ans ++ [(CKey.idx n ((0 : Nat) : Int), st.i + 1)],
          size := recSize st.size st.last,
          i := st.i + 1 + 1, last := some (n, 0) } := by
      cases st with
      | mk ans size i lst =>
          rw [stepLabel]
          simp only []
          rw [if_pos (by simp only at hi ⊢; exact ⟨by trivial, hi⟩)]
          simp only []
          rw [dset_append ans _ (i + 1) (by simpa using hf0)]
          rfl
    rw [hstep]
    have ih := foldl_tail n s' 1
      { ans := st.ans ++ [(CKey.idx n ((0 : Nat) : Int), st.i + 1)],
        size := recSize st.size st.last,
        i := st.i + 1 + 1, last := some (n, 0) }
      (Nat.le_refl 1)
      (by
        intro e he t ht
        rcases List.mem_append.mp he with h | h
        · exact hf e h t
        · simp only [List.mem_singleton] at h
          rw [h]
          intro hcc
          simp only [CKey.idx.injEq] at hcc
          have : (0 : Nat) = t := by exact_mod_cast hcc.2
          omega)
    simp only [] at ih
    rw [ih]
    rw [if_neg hi, if_neg hi]
    have hans : st.ans ++ [(CKey.idx n ((0 : Nat) : Int), st.i + 1)] ++
        chunk n 1 (st.i + 1 + 1) s' = st.ans ++ chunk n 0 (st.i + 1) (s' + 1) := by
      simp [chunk, List.append_assoc]
    have hi2 : st.i + 1 + 1 + s' = st.i + 1 + (s' + 1) := by omega
    have hlast : (if s' = 0 then some (n, 0) else some (n, 1 + s' - 1)) =
        some (n, s' + 1 - 1) := by
      cases s' with
      | zero => simp
      | succ s'' =>
          rw [if_neg (Nat.succ_ne_zero s'')]
          simp only [Option.some.injEq, Prod.mk.injEq]
          exact ⟨by trivial, by omega⟩
    rw [hans, hi2, hlast]

theorem foldl_regs : ∀ (rs : List (String × Nat)) (st : FSt),
    (∀ r ∈ rs, 1 ≤ r.2) → ((rs.map Prod.fst).Nodup) →
    (∀ r ∈ rs, ∀ e ∈ st.ans, ∀ t : Nat, e.1 ≠ CKey.idx r.1 (t : Int)) →
    (resLabels rs).foldl stepLabel st =
      { ans := st.ans ++ fwdAns st.i rs,
        size := fwdSize st.size st.i st.last rs,
        i := fwdI st.i rs,
        last := fwdLast st.last rs }
  | [], st, _, _, _ => by
      cases st
      simp [resLabels, fwdAns, fwdI, fwdSize, fwdLast]
  | r :: rest, st, h1, hnd, hf => by
      have hrs : resLabels (r :: rest) = regLabels r ++ resLabels rest := by
        simp [resLabels]
      rw [hrs, List.foldl_append]
      rw [foldl_reg r (h1 r (by simp)) st
        (fun e he t => hf r (by simp) e he t)]
      have hf1 : ∀ r' ∈ rest, ∀ e ∈ st.ans ++
          chunk r.1 0 (if st.i = 0 then st.i else st.i + 1) r.2,
          ∀ t : Nat, e.1 ≠ CKey.idx r'.1 (t : Int) := by
        intro r' hr' e he t
        rcases List.mem_append.mp he with h | h
        · exact hf r' (by simp [hr']) e h t
        · obtain ⟨u, _, he2⟩ := chunk_mem r.1 r.2 0 _ e h
          rw [he2]
          intro hcc
          have hname : r.1 = r'.1 := congrArg ckeyName hcc
          have : r'.1 ∈ rest.map Prod.fst := List.mem_map.mpr ⟨r', hr', rfl⟩
          rw [← hname] at this
          exact (List.nodup_cons.mp hnd).1 this
      have ih := foldl_regs rest
        { ans := st.ans ++ chunk r.1 0 (if st.i = 0 then st.i else st.i + 1) r.2,
          size := if st.i = 0 then st.size else recSize st.size st.last,
          i := (if st.i = 0 then st.i else st.i + 1) + r.2,
          last := some (r.1, r.2 - 1) }
        (fun x hx => h1 x (by simp [hx])) (List.nodup_cons.mp hnd).2
        (by simpa using hf1)
      simp only [] at ih
      rw [ih, fwdAns, fwdI, fwdSize, fwdLast, List.append_assoc]

theorem doRes_eq (st : FSt) (rs : List (String × Nat))
    (h1 : ∀ r ∈ rs, 1 ≤ r.2) (hnd : ((rs.map Prod.fst).Nodup))
    (hf : ∀ r ∈ rs, ∀ e ∈ st.ans, ∀ t : Nat, e.1 ≠ CKey.idx r.1 (t : Int)) :
    doRes st (resLabels rs) =
      { ans := st.ans ++ fwdAns st.i rs,
        size := match fwdLast none rs with
                | some lk => dset (fwdSize st.size st.i none rs) lk.1 (lk.2 + 1)
                | none => fwdSize st.size st.i none rs,
        i := fwdI st.i rs,
        last := fwdLast none rs } := by
  cases st with
  | mk ans size i lst =>
      rw [doRes]
      simp only []
      rw [foldl_regs rs ⟨ans, size, i, none⟩ h1 hnd (by simpa using hf)]
      simp only []
      rcases hfl : fwdLast none rs with _ | lk <;> simp only [hfl]

theorem doSize_carry : ∀ (rs : List (String × Nat))
    (size : List (String × Nat)) (i : Nat) (lk : Label), i ≠ 0 →
    (∀ r ∈ rs, 1 ≤ r.2) → ((lk.1 :: rs.map Prod.fst).Nodup) →
    (∀ e ∈ size, e.1 ≠ lk.1) → (∀ r ∈ rs, ∀ e ∈ size, e.1 ≠ r.1) →
    (match fwdLast (some lk) rs with
     | some lk' => dset (fwdSize size i (some lk) rs) lk'.1 (lk'.2 + 1)
     | none => fwdSize size i (some lk) rs) =
      size ++ (lk.1, lk.2 + 1) :: rs
  | [], size, i, lk, _, _, _, hfl, _ => by
      simp only [fwdLast, fwdSize]
      rw [dset_append size lk.1 (lk.2 + 1) hfl]
  | r :: rest, size, i, lk, hi, h1, hnd, hfl, hfr => by
      rw [fwdLast, fwdSize, if_neg hi, if_neg hi]
      simp only [recSize]
      rw [dset_append size lk.1 (lk.2 + 1) hfl]
      have hr2 : r.2 - 1 + 1 = r.2 := by
        have := h1 r (by simp)
        omega
      have hrec := doSize_carry rest (size ++ [(lk.1, lk.2 + 1)])
        (i + 1 + r.2) (r.1, r.2 - 1) (by omega)
        (fun x hx => h1 x (by simp [hx]))
        (by
          simp only []
          have := (List.nodup_cons.mp hnd).2
          simpa using this)
        (by
          intro e he
          rcases List.mem_append.mp he with h | h
          · exact hfr r (by simp) e h
          · simp only [List.mem_singleton] at h
            rw [h]
            simp only []
            intro hcc
            exact (List.nodup_cons.mp hnd).1 (by simp [hcc])
        )
        (by
          intro r' hr' e he
          rcases List.mem_append.mp he with h | h
          · exact hfr r' (by simp [hr']) e h
          · simp only [List.mem_singleton] at h
            rw [h]
            simp only []
            intro hcc
            have : r'.1 ∈ (r :: rest).map Prod.fst :=
              List.mem_map.mpr ⟨r', by simp [hr'], rfl⟩
            rw [← hcc] at this
            exact (List.nodup_cons.mp hnd).1 this)
      rw [hrec]
      simp only [hr2, Prod.mk.eta, List.append_assoc, List.singleton_append]

theorem doSize_eq : ∀ (rs : List (String × Nat))
    (size : List (String × Nat)) (i : Nat),
    (∀ r ∈ rs, 1 ≤ r.2) → ((rs.map Prod.fst).Nodup) →
    (∀ r ∈ rs, ∀ e ∈ size, e.1 ≠ r.1) →
    (match fwdLast none rs with
     | some lk' => dset (fwdSize size i none rs) lk'.1 (lk'.2 + 1)
     | none => fwdSize size i none rs) = size ++ rs
  | [], size, i, _, _, _ => by simp [fwdLast, fwdSize]
  | r :: rest, size, i, h1, hnd, hf => by
      rw [fwdLast, fwdSize]
      simp only [recSize, ite_self]
      have hr2 : r.2 - 1 + 1 = r.2 := by
        have := h1 r (by simp)
        omega
      have hrec := doSize_carry rest size
        ((if i = 0 then i else i + 1) + r.2) (r.1, r.2 - 1)
        (by have := h1 r (by simp); split <;> omega)
        (fun x hx => h1 x (by simp [hx]))
        (by simpa using hnd)
        (by
          intro e he
          simp only []
          exact hf r (by simp) e he)
        (fun r' hr' e he => hf r' (by simp [hr']) e he)
      rw [hrec]
      simp only [hr2, Prod.mk.eta, List.append_assoc, List.singleton_append]

theorem foldl_doRes : ∀ (rss : List (List (String × Nat))) (st : FSt),
    (∀ rs ∈ rss, ∀ r ∈ rs, 1 ≤ r.2) →
    (((flatRegs rss).map Prod.fst).Nodup) →
    (∀ rs ∈ rss, ∀ r ∈ rs, ∀ e ∈ st.ans, ∀ t : Nat,
      e.1 ≠ CKey.idx r.1 (t : Int)) →
    (∀ rs ∈ rss, ∀ r ∈ rs, ∀ e ∈ st.size, e.1 ≠ r.1) →
    ((rss.map resLabels).foldl doRes st).ans =
        st.ans ++ fwdAns st.i (flatRegs rss) ∧
      ((rss.map resLabels).foldl doRes st).size =
        st.size ++ flatRegs rss ∧
      ((rss.map resLabels).foldl doRes st).i = fwdI st.i (flatRegs rss)
  | [], st, _, _, _, _ => by simp [flatRegs, fwdAns, fwdI]
  | rs :: rss, st, h1, hnd, hfa, hfs => by
      have hflat : flatRegs (rs :: rss) = rs ++ flatRegs rss := by
        simp [flatRegs]
      rw [hflat] at hnd ⊢
      have hnd1 : ((rs.map Prod.fst).Nodup) := by
        rw [List.map_append] at hnd
        exact (List.nodup_append.mp hnd).1
      have hnd2 : (((flatRegs rss).map Prod.fst).Nodup) := by
        rw [List.map_append] at hnd
        exact (List.nodup_append.mp hnd).2.1
      have hdisj : ∀ x ∈ rs.map Prod.fst, x ∉ (flatRegs rss).map Prod.fst := by
        rw [List.map_append] at hnd
        exact fun x hx => (List.nodup_append.mp hnd).2.2 hx
      rw [List.map_cons, List.foldl_cons]
      have hst1 := doRes_eq st rs (h1 rs (by simp)) hnd1 (hfa rs (by simp))
      have hsz := doSize_eq rs st.size st.i (h1 rs (by simp)) hnd1
        (fun r hr e he => hfs rs (by simp) r hr e he)
      rw [hsz] at hst1
      rw [hst1]
      have ih := foldl_doRes rss
        { ans := st.ans ++ fwdAns st.i rs,
          size := st.size ++ rs,
          i := fwdI st.i rs,
          last := fwdLast none rs }
        (fun x hx => h1 x (by simp [hx])) hnd2
        (by
          intro rs' hrs' r' hr' e he t
          simp only [] at he
          rcases List.mem_append.mp he with h | h
          · exact hfa rs' (by simp [hrs']) r' hr' e h t
          · obtain ⟨r'', hr'', t'', _, he1⟩ := fwdAns_mem rs _ e h
            rw [he1]
            intro hcc
            have hname : r''.1 = r'.1 := congrArg ckeyName hcc
            have hmem1 : r''.1 ∈ rs.map Prod.fst :=
              List.mem_map.mpr ⟨r'', hr'', rfl⟩
            have hmem2 : r'.1 ∈ (flatRegs rss).map Prod.fst := by
              refine List.mem_map.mpr ⟨r', ?_, rfl⟩
              simp only [flatRegs, List.mem_flatMap]
              exact ⟨rs', hrs', by simpa using hr'⟩
            rw [hname] at hmem1
            exact hdisj _ hmem1 hmem2)
        (by
          intro rs' hrs' r' hr' e he
          simp only [] at he
          rcases List.mem_append.mp he with h | h
          · exact hfs rs' (by simp [hrs']) r' hr' e h
          · intro hcc
            have hmem1 : e.1 ∈ rs.map Prod.fst := List.mem_map.mpr ⟨e, h, rfl⟩
            have hmem2 : r'.1 ∈ (flatRegs rss).map Prod.fst := by
              refine List.mem_map.mpr ⟨r', ?_, rfl⟩
              simp only [flatRegs, List.mem_flatMap]
              exact ⟨rs', hrs', by simpa using hr'⟩
            rw [hcc] at hmem1
            exact hdisj _ hmem1 hmem2)
      simp only [] at ih
      obtain ⟨iha, ihs, ihi⟩ := ih
      refine ⟨?_, ?_, ?_⟩
      · rw [iha, fwdAns_append, List.append_assoc]
      · rw [ihs, List.append_assoc]
      · rw [ihi, fwdI_append]

theorem bare_fold :
    ∀ (f : List (CKey × Nat) → (String × Nat) → Except PErr (List (CKey × Nat)))
      (szs : List (String × Nat)) (a : List (CKey × Nat)),
    (∀ acc e, e.2 = 1 → ∀ v, dget? acc (CKey.idx e.1 0) = some v →
      f acc e = .ok (dset acc (CKey.bare e.1) v)) →
    (∀ acc e, ¬ e.2 = 1 → f acc e = .ok acc) →
    (∀ r ∈ szs, r.2 = 1 → ∃ v, dget? a (CKey.idx r.1 0) = some v) →
    (∀ r ∈ szs, ∀ e ∈ a, e.1 ≠ CKey.bare r.1) →
    ((szs.map Prod.fst).Nodup) →
    exFoldlM f a szs =
      .ok (a ++ szs.filterMap (fun r =>
        if r.2 = 1 then
          some (CKey.bare r.1, (dget? a (CKey.idx r.1 0)).getD 0)
        else none))
  | _, [], a, _, _, _, _, _ => by simp [exFoldlM]
  | f, r :: szs, a, hfa, hfb, hcov, hfr, hnd => by
      rw [exFoldlM]
      by_cases h1 : r.2 = 1
      · obtain ⟨v, hv⟩ := hcov r (by simp) h1
        rw [hfa a r h1 v hv]
        have hset : dset a (CKey.bare r.1) v = a ++ [(CKey.bare r.1, v)] :=
          dset_append a _ v (fun e he => hfr r (by simp) e he)
        rw [ex_bind_ok, hset]
        have hrec := bare_fold f szs (a ++ [(CKey.bare r.1, v)]) hfa hfb
          (by
            intro r' hr' h1'
            obtain ⟨v', hv'⟩ := hcov r' (by simp [hr']) h1'
            refine ⟨v', ?_⟩
            rw [dget?_append, hv'])
          (by
            intro r' hr' e he
            rcases List.mem_append.mp he with h | h
            · exact hfr r' (by simp [hr']) e h
            · simp only [List.mem_singleton] at h
              rw [h]
              simp only [ne_eq, CKey.bare.injEq]
              intro hcc
              have : r'.1 ∈ szs.map Prod.fst := List.mem_map.mpr ⟨r', hr', rfl⟩
              rw [← hcc] at this
              exact (List.nodup_cons.mp hnd).1 this)
          (List.nodup_cons.mp hnd).2
        rw [hrec, List.filterMap_cons_some (by rw [if_pos h1]), hv]
        have htail : szs.filterMap (fun r' =>
            if r'.2 = 1 then
              some (CKey.bare r'.1,
                (dget? (a ++ [(CKey.bare r.1, v)]) (CKey.idx r'.1 0)).getD 0)
            else none) = szs.filterMap (fun r' =>
            if r'.2 = 1 then
              some (CKey.bare r'.1, (dget? a (CKey.idx r'.1 0)).getD 0)
            else none) := by
          refine List.filterMap_congr ?_
          intro r' hr'
          by_cases h1' : r'.2 = 1
          · rw [if_pos h1', if_pos h1']
            obtain ⟨v', hv'⟩ := hcov r' (by simp [hr']) h1'
            rw [dget?_append, hv']
          · rw [if_neg h1', if_neg h1']
        rw [htail, List.append_assoc, List.singleton_append]
        rfl
      · rw [hfb a r h1, ex_bind_ok]
        rw [bare_fold f szs a hfa hfb (fun r' hr' => hcov r' (by simp [hr']))
          (fun r' hr' => hfr r' (by simp [hr'])) (List.nodup_cons.mp hnd).2]
        rw [List.filterMap_cons_none (by rw [if_neg h1])]

theorem exMapM_negAns (szd : List (String × Nat)) :
    ∀ (f : (CKey × Nat) → Except PErr (CKey × Nat))
      (l : List (CKey × Nat)),
    (∀ e ∈ l, f e = .ok (negKey szd e.1, e.2)) →
    exMapM f l = .ok (l.map (fun e => (negKey szd e.1, e.2))) :=
  fun f l hpt => exMapM_ok_of_forall f _ l hpt

theorem clbit_eq_tableOf (rss : List (List (String × Nat)))
    (h1 : ∀ rs ∈ rss, ∀ r ∈ rs, 1 ≤ r.2)
    (hnd : (((flatRegs rss).map Prod.fst).Nodup)) :
    clbit_label_to_mii (rss.map resLabels) = .ok (tableOf rss) := by
  have h1f : ∀ r ∈ flatRegs rss, 1 ≤ r.2 := by
    intro r hr
    obtain ⟨rs, hrs, hr'⟩ := List.mem_flatMap.mp hr
    exact h1 rs hrs r (by simpa using hr')
  obtain ⟨ha, hs, hi⟩ := foldl_doRes rss ⟨[], [], 0, none⟩ h1 hnd
    (by intro rs _ r _ e he; cases he) (by intro rs _ r _ e he; cases he)
  simp only [List.nil_append] at ha hs hi
  have hkeymem : ∀ r ∈ flatRegs rss, ∀ t : Nat, t < r.2 →
      CKey.idx r.1 (t : Int) ∈ (fwdAns 0 (flatRegs rss)).map Prod.fst := by
    intro r hr t ht
    rw [fwdAns_keys]
    refine List.mem_flatMap.mpr ⟨r, hr, ?_⟩
    exact List.mem_map.mpr ⟨t, List.mem_range.mpr ht, rfl⟩
  have hrevkeys : (revAns rss).map Prod.fst =
      (fwdAns 0 (flatRegs rss)).map Prod.fst := by
    rw [revAns, List.map_map]
    rfl
  have hrevmem : ∀ e ∈ revAns rss, ∃ r, r ∈ flatRegs rss ∧ ∃ t : Nat,
      t < r.2 ∧ e.1 = CKey.idx r.1 (t : Int) := by
    intro e he
    obtain ⟨e0, he0, rfl⟩ := List.mem_map.mp he
    obtain ⟨r, hr, t, ht, hk⟩ := fwdAns_mem (flatRegs rss) 0 e0 he0
    exact ⟨r, hr, t, ht, hk⟩
  have hdget : ∀ r ∈ flatRegs rss, dget? (flatRegs rss) r.1 = some r.2 :=
    fun r hr => dget?_nodup_mem (flatRegs rss) hnd r hr
  have hsame : ∀ rx ∈ flatRegs rss, ∀ ry ∈ flatRegs rss,
      rx.1 = ry.1 → rx.2 = ry.2 := by
    intro rx hrx ry hry hn
    have h1' := hdget rx hrx
    have h2' := hdget ry hry
    rw [hn, h2'] at h1'
    exact (Option.some.inj h1').symm
  have hans1 : (if fwdI 0 (flatRegs rss) = 0 then fwdAns 0 (flatRegs rss)
      else (fwdAns 0 (flatRegs rss)).map
        (fun e => (e.1, fwdI 0 (flatRegs rss) - 1 - e.2))) = revAns rss := by
    by_cases hR : flatRegs rss = []
    · rw [hR]
      simp [fwdI, fwdAns, revAns, hR]
    · rw [if_neg (by have := fwdI_pos (flatRegs rss) 0 hR h1f; omega)]
      rfl
  have hcov1 : ∀ e ∈ revAns rss, ∃ (n : String) (s t : Nat),
      e.1 = CKey.idx n (t : Int) ∧ dget? (flatRegs rss) n = some s ∧
      t < s := by
    intro e he
    obtain ⟨r, hr, t, ht, hk⟩ := hrevmem e he
    exact ⟨r.1, r.2, t, hk, hdget r hr, ht⟩
  have hnegkeys : (negAns rss).map Prod.fst =
      ((revAns rss).map Prod.fst).map (negKey (flatRegs rss)) := by
    rw [negAns, List.map_map, List.map_map]
    rfl
  have hkeynodup : ((revAns rss).map Prod.fst).Nodup := by
    rw [hrevkeys]
    exact fwdAns_keys_nodup (flatRegs rss) 0 hnd
  have hknodup2 : ((revAns rss ++ negAns rss).map Prod.fst).Nodup := by
    rw [List.map_append]
    refine List.Nodup.append hkeynodup ?_ ?_
    · rw [hnegkeys]
      refine List.Nodup.map_on ?_ hkeynodup
      intro x hx y hy hxy
      obtain ⟨ex, hex, rfl⟩ := List.mem_map.mp hx
      obtain ⟨ey, hey, rfl⟩ := List.mem_map.mp hy
      obtain ⟨rx, hrx, tx, htx, hkx⟩ := hrevmem ex hex
      obtain ⟨ry, hry, ty, hty, hky⟩ := hrevmem ey hey
      rw [hkx, hky] at hxy ⊢
      simp only [negKey, hdget rx hrx, hdget ry hry, Option.getD] at hxy
      have hn : rx.1 = ry.1 := congrArg ckeyName hxy
      simp only [CKey.idx.injEq] at hxy
      have hsz : rx.2 = ry.2 := hsame rx hrx ry hry hn
      have htt : tx = ty := by
        have h2 := hxy.2
        omega
      rw [hn, htt]
    · intro k hk1 hk2
      rw [hrevkeys] at hk1
      obtain ⟨e0, he0, hke⟩ := List.mem_map.mp hk1
      obtain ⟨r, hr, t, ht, hk⟩ := fwdAns_mem (flatRegs rss) 0 e0 he0
      rw [hnegkeys] at hk2
      obtain ⟨k', hk', hkk⟩ := List.mem_map.mp hk2
      rw [hrevkeys] at hk'
      obtain ⟨e1, he1, hke1⟩ := List.mem_map.mp hk'
      obtain ⟨r', hr', t', ht', hk1'⟩ := fwdAns_mem (flatRegs rss) 0 e1 he1
      rw [← hke, hk] at hkk
      rw [← hke1, hk1'] at hkk
      simp only [negKey, hdget r' hr', Option.getD] at hkk
      simp only [CKey.idx.injEq] at hkk
      have h2 := hkk.2
      omega
  have hcov2 : ∀ r ∈ flatRegs rss, r.2 = 1 →
      ∃ v, dget? (revAns rss ++ negAns rss) (CKey.idx r.1 0) = some v := by
    intro r hr h1'
    have hmem : CKey.idx r.1 ((0 : Nat) : Int) ∈ (revAns rss).map Prod.fst := by
      rw [hrevkeys]
      exact hkeymem r hr 0 (by omega)
    obtain ⟨v, hv⟩ := dget?_isSome_of_mem (revAns rss) _ hmem
    refine ⟨v, ?_⟩
    rw [dget?_append]
    simp only [Int.ofNat_eq_coe, Nat.cast_zero] at hv ⊢
    rw [hv]
  have hfr2 : ∀ r ∈ flatRegs rss, ∀ e ∈ revAns rss ++ negAns rss,
      e.1 ≠ CKey.bare r.1 := by
    intro r hr e he
    rcases List.mem_append.mp he with h | h
    · obtain ⟨r', _, t', _, hk⟩ := hrevmem e h
      rw [hk]
      intro hcc
      cases hcc
    · obtain ⟨e1, he1, rfl⟩ := List.mem_map.mp h
      obtain ⟨r', _, t', _, hk⟩ := hrevmem e1 he1
      simp only [hk, negKey]
      intro hcc
      cases hcc
  rw [clbit_label_to_mii]
  simp only []
  rw [ha, hs, hi, hans1]
  rw [exMapM_negAns (flatRegs rss)]
  swap
  · intro e he
    obtain ⟨n, sv, t, hk, hd, hts⟩ := hcov1 e he
    rw [hk]
    simp only []
    rw [hd]
    simp only [ex_pure, ex_bind_ok]
    have hts' : (t : Int) < (sv : Int) := by exact_mod_cast hts
    rw [if_pos (by constructor <;> omega)]
    simp only [negKey, hd, Option.getD, ex_pure]
  rw [ex_bind_ok]
  rw [show (revAns rss).map
        (fun e => (negKey (flatRegs rss) e.1, e.2)) = negAns rss from rfl]
  rw [foldl_dset_fresh (negAns rss) (revAns rss) hknodup2]
  rw [bare_fold]
  rotate_left
  · intro acc e h1' v hv
    rw [if_pos h1', hv]
    rfl
  · intro acc e h1'
    rw [if_neg h1']
    rfl
  · exact hcov2
  · exact hfr2
  · exact hnd
  rw [ex_bind_ok, ex_pure]
  have hbarefin : (flatRegs rss).filterMap (fun r =>
      if r.2 = 1 then
        some (CKey.bare r.1,
          (dget? (revAns rss ++ negAns rss) (CKey.idx r.1 0)).getD 0)
      else none) = bareAns rss := by
    rw [bareAns]
    refine List.filterMap_congr ?_
    intro r hr
    by_cases h1' : r.2 = 1
    · rw [if_pos h1', if_pos h1']
      have hmem : CKey.idx r.1 ((0 : Nat) : Int) ∈
          (revAns rss).map Prod.fst := by
        rw [hrevkeys]
        exact hkeymem r hr 0 (by have := h1f r hr; omega)
      obtain ⟨v, hv⟩ := dget?_isSome_of_mem (revAns rss) _ hmem
      simp only [Int.ofNat_eq_coe, Nat.cast_zero] at hv
      rw [dget?_append, hv]
    · rw [if_neg h1', if_neg h1']
  rw [hbarefin, tableOf]

theorem find?_congr_mem {α : Type} : ∀ (l : List α) (p q : α → Bool),
    (∀ x ∈ l, p x = q x) → l.find? p = l.find? q
  | [], _, _, _ => rfl
  | x :: l, p, q, h => by
      rw [List.find?_cons, List.find?_cons, h x (by simp)]
      cases q x with
      | true => rfl
      | false => exact find?_congr_mem l p q (fun y hy => h y (by simp [hy]))

theorem nonnegVals_tableOf (rss : List (List (String × Nat)))
    (_h1f : ∀ r ∈ flatRegs rss, 1 ≤ r.2)
    (hnd : (((flatRegs rss).map Prod.fst).Nodup)) :
    nonnegVals (tableOf rss) = (revAns rss).map Prod.snd := by
  have hrevmem : ∀ e ∈ revAns rss, ∃ r, r ∈ flatRegs rss ∧ ∃ t : Nat,
      t < r.2 ∧ e.1 = CKey.idx r.1 (t : Int) := by
    intro e he
    obtain ⟨e0, he0, rfl⟩ := List.mem_map.mp he
    obtain ⟨r, hr, t, ht, hk⟩ := fwdAns_mem (flatRegs rss) 0 e0 he0
    exact ⟨r, hr, t, ht, hk⟩
  have hdget : ∀ r ∈ flatRegs rss, dget? (flatRegs rss) r.1 = some r.2 :=
    fun r hr => dget?_nodup_mem (flatRegs rss) hnd r hr
  rw [tableOf, nonnegVals, List.filterMap_append, List.filterMap_append]
  have h2 : (negAns rss).filterMap (fun e => match e.1 with
      | CKey.idx _ i => if 0 ≤ i then some e.2 else none
      | CKey.bare _ => none) = [] := by
    rw [List.filterMap_eq_nil_iff]
    intro e he
    obtain ⟨e1, he1, rfl⟩ := List.mem_map.mp he
    obtain ⟨r, hr, t, ht, hk⟩ := hrevmem e1 he1
    simp only [hk, negKey, hdget r hr, Option.getD]
    rw [if_neg (by omega)]
  have h3 : (bareAns rss).filterMap (fun e => match e.1 with
      | CKey.idx _ i => if 0 ≤ i then some e.2 else none
      | CKey.bare _ => none) = [] := by
    rw [List.filterMap_eq_nil_iff]
    intro e he
    obtain ⟨r, _, hfr⟩ := List.mem_filterMap.mp he
    by_cases h1' : r.2 = 1
    · rw [if_pos h1'] at hfr
      obtain ⟨rfl⟩ := Option.some.inj hfr
      rfl
    · rw [if_neg h1'] at hfr
      cases hfr
  have hcg : (revAns rss).filterMap (fun e => match e.1 with
      | CKey.idx _ i => if 0 ≤ i then some e.2 else none
      | CKey.bare _ => none) = (revAns rss).filterMap (fun e => some e.2) := by
    refine List.filterMap_congr ?_
    intro e he
    obtain ⟨r, hr, t, ht, hk⟩ := hrevmem e he
    simp only [hk]
    rw [if_pos (by omega)]
  rw [hcg, h2, h3, List.append_nil, List.append_nil]
  exact congrFun (List.filterMap_eq_map Prod.snd) (revAns rss)

open List in
theorem perm_tableOf (rss : List (List (String × Nat)))
    (h1f : ∀ r ∈ flatRegs rss, 1 ≤ r.2)
    (hnd : (((flatRegs rss).map Prod.fst).Nodup)) :
    (nonnegVals (tableOf rss) ++ revSeps rss).Perm
      (List.range (fwdI 0 (flatRegs rss))) := by
  rw [nonnegVals_tableOf rss h1f hnd, revSeps]
  have hmap : (revAns rss).map Prod.snd =
      ((fwdAns 0 (flatRegs rss)).map Prod.snd).map
        (fun v => fwdI 0 (flatRegs rss) - 1 - v) := by
    rw [revAns, List.map_map, List.map_map]
    rfl
  rw [hmap, ← List.map_append]
  have hperm := List.Perm.map (fun v => fwdI 0 (flatRegs rss) - 1 - v)
    (fwd_perm (flatRegs rss) 0 h1f)
  refine hperm.trans ?_
  rw [Nat.sub_zero]
  have hrev : (List.range' 0 (fwdI 0 (flatRegs rss))).map
      (fun v => fwdI 0 (flatRegs rss) - 1 - v) =
      (List.range (fwdI 0 (flatRegs rss))).reverse := by
    rw [show (List.range (fwdI 0 (flatRegs rss))).reverse =
      (List.range' 0 (fwdI 0 (flatRegs rss))).reverse from by
        rw [List.range_eq_range']]
    rw [List.reverse_range', ← List.range_eq_range']
    refine List.map_congr_left ?_
    intro v _
    omega
  rw [hrev]
  exact List.reverse_perm _

theorem dget?_revAns_pos (rss : List (List (String × Nat)))
    (_hnd : (((flatRegs rss).map Prod.fst).Nodup))
    (r : String × Nat) (hr : r ∈ flatRegs rss) (t : Nat) (ht : t < r.2) :
    ∃ v, dget? (revAns rss) (CKey.idx r.1 (t : Int)) = some v := by
  refine dget?_isSome_of_mem _ _ ?_
  rw [revAns, List.map_map]
  rw [show (Prod.fst ∘ fun e : CKey × Nat =>
    (e.1, fwdI 0 (flatRegs rss) - 1 - e.2)) = Prod.fst from rfl]
  rw [fwdAns_keys]
  refine List.mem_flatMap.mpr ⟨r, hr, ?_⟩
  exact List.mem_map.mpr ⟨t, List.mem_range.mpr ht, rfl⟩

theorem dget?_revAns_neg (rss : List (List (String × Nat))) (n : String) :
    dget? (revAns rss) (CKey.idx n (-1)) = none := by
  refine dget?_eq_none_of _ _ ?_
  intro e he
  obtain ⟨e0, he0, rfl⟩ := List.mem_map.mp he
  obtain ⟨r, _, t, _, hk⟩ := fwdAns_mem (flatRegs rss) 0 e0 he0
  simp only [hk]
  intro hcc
  simp only [CKey.idx.injEq] at hcc
  omega

theorem dget?_bare_none (l : List (CKey × Nat)) (n : String)
    (h : ∀ e ∈ l, ∀ m : String, e.1 ≠ CKey.bare m) :
    dget? l (CKey.bare n) = none := by
  refine dget?_eq_none_of _ _ ?_
  exact fun e he => h e he n

theorem dget?_negAns_alias (rss : List (List (String × Nat)))
    (hnd : (((flatRegs rss).map Prod.fst).Nodup))
    (r : String × Nat) (hr : r ∈ flatRegs rss) :
    dget? (negAns rss) (CKey.idx r.1 (-1)) =
      dget? (revAns rss) (CKey.idx r.1 ((r.2 - 1 : Nat) : Int)) := by
  have hdget : ∀ x ∈ flatRegs rss, dget? (flatRegs rss) x.1 = some x.2 :=
    fun x hx => dget?_nodup_mem (flatRegs rss) hnd x hx
  have hsame : ∀ rx ∈ flatRegs rss, ∀ ry ∈ flatRegs rss,
      rx.1 = ry.1 → rx.2 = ry.2 := by
    intro rx hrx ry hry hn
    have h1' := hdget rx hrx
    have h2' := hdget ry hry
    rw [hn, h2'] at h1'
    exact (Option.some.inj h1').symm
  rw [negAns, dget?, List.find?_map]
  rw [find?_congr_mem (revAns rss)
    ((fun e : CKey × Nat => e.1 == CKey.idx r.1 (-1)) ∘
      (fun e : CKey × Nat => (negKey (flatRegs rss) e.1, e.2)))
    (fun e : CKey × Nat => e.1 == CKey.idx r.1 ((r.2 - 1 : Nat) : Int)) ?_]
  · rw [dget?]
    cases (revAns rss).find? (fun e : CKey × Nat =>
        e.1 == CKey.idx r.1 ((r.2 - 1 : Nat) : Int)) with
    | none => rfl
    | some e => rfl
  · intro e he
    obtain ⟨e0, he0, rfl⟩ := List.mem_map.mp he
    obtain ⟨r', hr', t, ht, hk⟩ := fwdAns_mem (flatRegs rss) 0 e0 he0
    simp only [Function.comp, hk, negKey, hdget r' hr', Option.getD]
    show decide (CKey.idx r'.1 ((t : Int) - (r'.2 : Int)) =
        CKey.idx r.1 (-1)) =
      decide (CKey.idx r'.1 (t : Int) =
        CKey.idx r.1 ((r.2 - 1 : Nat) : Int))
    rw [decide_eq_decide]
    simp only [CKey.idx.injEq]
    constructor
    · rintro ⟨hn, hv⟩
      have hsz := hsame r' hr' r hr hn
      exact ⟨hn, by omega⟩
    · rintro ⟨hn, hv⟩
      have hsz := hsame r' hr' r hr hn
      exact ⟨hn, by omega⟩

theorem bare_lookup (w : String → Nat) :
    ∀ (szs : List (String × Nat)), ((szs.map Prod.fst).Nodup) →
    ∀ r ∈ szs, r.2 = 1 →
    dget? (szs.filterMap (fun x =>
        if x.2 = 1 then some (CKey.bare x.1, w x.1) else none))
      (CKey.bare r.1) = some (w r.1)
  | [], _, r, hr, _ => by cases hr
  | x :: szs, hnd, r, hr, h1' => by
      by_cases hx : x.2 = 1
      · rw [List.filterMap_cons_some (by rw [if_pos hx])]
        by_cases hn : x.1 = r.1
        · simp [dget?, List.find?_cons, hn]
        · have hr' : r ∈ szs := by
            rcases List.mem_cons.mp hr with rfl | h
            · exact absurd rfl hn
            · exact h
          have := bare_lookup w szs (List.nodup_cons.mp hnd).2 r hr' h1'
          simp only [dget?, List.find?_cons] at this ⊢
          rw [show ((CKey.bare x.1, w x.1).1 ==
              CKey.bare r.1) = false from by simpa using hn]
          exact this
      · rw [List.filterMap_cons_none (by rw [if_neg hx])]
        have hr' : r ∈ szs := by
          rcases List.mem_cons.mp hr with rfl | h
          · exact absurd h1' hx
          · exact h
        exact bare_lookup w szs (List.nodup_cons.mp hnd).2 r hr' h1'

theorem tableOf_alias (rss : List (List (String × Nat)))
    (h1f : ∀ r ∈ flatRegs rss, 1 ≤ r.2)
    (hnd : (((flatRegs rss).map Prod.fst).Nodup))
    (r : String × Nat) (hr : r ∈ flatRegs rss) :
    dget? (tableOf rss) (CKey.idx r.1 (-1)) =
      dget? (tableOf rss) (CKey.idx r.1 ((r.2 - 1 : Nat) : Int)) := by
  obtain ⟨v, hv⟩ := dget?_revAns_pos rss hnd r hr (r.2 - 1)
    (by have := h1f r hr; omega)
  rw [tableOf, List.append_assoc]
  rw [dget?_append, dget?_revAns_neg rss r.1]
  simp only []
  rw [dget?_append, dget?_negAns_alias rss hnd r hr]
  rw [dget?_append, hv]

theorem tableOf_bare (rss : List (List (String × Nat)))
    (_h1f : ∀ r ∈ flatRegs rss, 1 ≤ r.2)
    (hnd : (((flatRegs rss).map Prod.fst).Nodup))
    (r : String × Nat) (hr : r ∈ flatRegs rss) (h1' : r.2 = 1) :
    dget? (tableOf rss) (CKey.bare r.1) =
      dget? (tableOf rss) (CKey.idx r.1 0) := by
  have hrevmem : ∀ e ∈ revAns rss, ∃ x, x ∈ flatRegs rss ∧ ∃ t : Nat,
      t < x.2 ∧ e.1 = CKey.idx x.1 (t : Int) := by
    intro e he
    obtain ⟨e0, he0, rfl⟩ := List.mem_map.mp he
    obtain ⟨x, hx, t, ht, hk⟩ := fwdAns_mem (flatRegs rss) 0 e0 he0
    exact ⟨x, hx, t, ht, hk⟩
  obtain ⟨v, hv⟩ := dget?_revAns_pos rss hnd r hr 0 (by omega)
  simp only [Nat.cast_zero] at hv
  have hrv : dget? (revAns rss) (CKey.bare r.1) = none := by
    refine dget?_bare_none _ _ ?_
    intro e he m
    obtain ⟨x, _, t, _, hk⟩ := hrevmem e he
    rw [hk]
    intro hcc
    cases hcc
  have hng : dget? (negAns rss) (CKey.bare r.1) = none := by
    refine dget?_bare_none _ _ ?_
    intro e he m
    obtain ⟨e1, he1, rfl⟩ := List.mem_map.mp he
    obtain ⟨x, _, t, _, hk⟩ := hrevmem e1 he1
    simp only [hk, negKey]
    intro hcc
    cases hcc
  have hbl : dget? (bareAns rss) (CKey.bare r.1) =
      some ((dget? (revAns rss) (CKey.idx r.1 0)).getD 0) :=
    bare_lookup (fun n => (dget? (revAns rss) (CKey.idx n 0)).getD 0)
      (flatRegs rss) hnd r hr h1'
  rw [tableOf, List.append_assoc]
  rw [dget?_append, hrv]
  simp only []
  rw [dget?_append, hng]
  simp only []
  rw [hbl, hv]
  simp only [Option.getD]
  rw [dget?_append, hv]

theorem tableOf_last (rss : List (List (String × Nat)))
    (h1f : ∀ r ∈ flatRegs rss, 1 ≤ r.2)
    (hnd : (((flatRegs rss).map Prod.fst).Nodup))
    (r : String × Nat) (hlast : (flatRegs rss).getLast? = some r) :
    dget? (tableOf rss) (CKey.idx r.1 ((r.2 - 1 : Nat) : Int)) = some 0 := by
  have hd := fwdAns_dget_last (flatRegs rss) 0 r hnd h1f hlast
  have hv : dget? (revAns rss) (CKey.idx r.1 ((r.2 - 1 : Nat) : Int)) =
      some 0 := by
    rw [revAns, dget?_map_val, hd]
    simp
  rw [tableOf, List.append_assoc, dget?_append, hv]

/-- C10: for every job result declaring `k ≥ 2` classical registers (as
contiguous `0..size-1` label runs, distinct names, `N` total bits),
`clbit_label_to_mii` returns exactly the expected table; its
non-negative-index positions together with the `k-1` reversed separator
positions are a permutation of `{0, ..., N+k-2}` (so, the separator list
being nonempty, the assigned positions alone are not contiguous — one
integer is skipped at each register boundary), and position `0` is
assigned to the last declared bit label of the last declared register. -/
theorem c10_noncontiguous_positions (rss : List (List (String × Nat)))
    (h1 : ∀ rs ∈ rss, ∀ r ∈ rs, 1 ≤ r.2)
    (hnd : (((flatRegs rss).map Prod.fst).Nodup))
    (hk2 : 2 ≤ (flatRegs rss).length) :
    clbit_label_to_mii (rss.map resLabels) = .ok (tableOf rss) ∧
    (nonnegVals (tableOf rss) ++ revSeps rss).Perm
      (List.range (sumS (flatRegs rss) + (flatRegs rss).length - 1)) ∧
    (revSeps rss).length = (flatRegs rss).length - 1 ∧
    1 ≤ (revSeps rss).length ∧
    (∀ r, (flatRegs rss).getLast? = some r →
      dget? (tableOf rss) (CKey.idx r.1 ((r.2 - 1 : Nat) : Int)) = some 0) := by
  have h1f : ∀ r ∈ flatRegs rss, 1 ≤ r.2 := by
    intro r hr
    obtain ⟨rs, hrs, hr'⟩ := List.mem_flatMap.mp hr
    exact h1 rs hrs r (by simpa using hr')
  have hne : flatRegs rss ≠ [] := by
    intro h
    rw [h] at hk2
    simp at hk2
  refine ⟨clbit_eq_tableOf rss h1 hnd, ?_, ?_, ?_, ?_⟩
  · have hp := perm_tableOf rss h1f hnd
    rw [fwdI_zero (flatRegs rss) hne h1f] at hp
    exact hp
  · rw [revSeps, List.length_map, seps_length0 (flatRegs rss) hne h1f]
  · rw [revSeps, List.length_map, seps_length0 (flatRegs rss) hne h1f]
    omega
  · intro r hlast
    exact tableOf_last rss h1f hnd r hlast

/-- Witness for C10 at the two-register example `[("a", 3), ("b", 1)]`
(`N = 4`, `k = 2`): every hypothesis is discharged by evaluation. -/
theorem c10_noncontiguous_positions_witness :
    ((∀ rs ∈ [[("a", 3), ("b", 1)]], ∀ r ∈ rs, 1 ≤ r.2) ∧
     ((flatRegs [[("a", 3), ("b", 1)]]).map Prod.fst).Nodup ∧
     2 ≤ (flatRegs [[("a", 3), ("b", 1)]]).length) ∧
    clbit_label_to_mii ([[("a", 3), ("b", 1)]].map resLabels) =
      .ok (tableOf [[("a", 3), ("b", 1)]]) ∧
    (nonnegVals (tableOf [[("a", 3), ("b", 1)]]) ++
        revSeps [[("a", 3), ("b", 1)]]).Perm (List.range 5) ∧
    (revSeps [[("a", 3), ("b", 1)]]).length = 1 ∧
    dget? (tableOf [[("a", 3), ("b", 1)]])
      (CKey.idx "b" ((1 - 1 : Nat) : Int)) = some 0 :=
  have h := c10_noncontiguous_positions [[("a", 3), ("b", 1)]] (by decide) (by decide)
    (by decide)
  ⟨⟨by decide, by decide, by decide⟩, h.1, h.2.1, h.2.2.1,
    h.2.2.2.2 ("b", 1) (by decide)⟩

/-- C1 (amended): for every job result whose sub-results declare
classical registers as contiguous `0..size-1` runs (distinct names,
sizes ≥ 1), `clbit_label_to_mii` returns the expected table whose
non-negative-index keys are exactly the declared classical bits in
declaration order and whose values are collision-free — an injection
onto a set that is, however, *not* `{0..N-1}` whenever there are two or
more registers (see the counterexample); the bare register name is a key
for every size-1 register, mapped equal to `(name, 0)`, and
`position (name, -1) = position (name, size - 1)` for every register.
Concretely, for registers `[("a", 3), ("b", 1)]` the non-negative-index
values are `[4, 3, 2, 0]` — not `{0,1,2,3}` as the claim stated. -/
theorem c1_bit_position_table_amended :
    (∀ rss : List (List (String × Nat)),
      (∀ rs ∈ rss, ∀ r ∈ rs, 1 ≤ r.2) →
      (((flatRegs rss).map Prod.fst).Nodup) →
      clbit_label_to_mii (rss.map resLabels) = .ok (tableOf rss) ∧
      (revAns rss).map Prod.fst = (flatRegs rss).flatMap
        (fun r => (List.range r.2).map (fun t : Nat => CKey.idx r.1 t)) ∧
      (nonnegVals (tableOf rss)).Nodup ∧
      (∀ r ∈ flatRegs rss,
        dget? (tableOf rss) (CKey.idx r.1 (-1)) =
          dget? (tableOf rss) (CKey.idx r.1 ((r.2 - 1 : Nat) : Int))) ∧
      (∀ r ∈ flatRegs rss, r.2 = 1 →
        dget? (tableOf rss) (CKey.bare r.1) =
          dget? (tableOf rss) (CKey.idx r.1 0))) ∧
    nonnegVals (tableOf [[("a", 3), ("b", 1)]]) = [4, 3, 2, 0] ∧
    dget? (tableOf [[("a", 3), ("b", 1)]]) (CKey.bare "b") =
      dget? (tableOf [[("a", 3), ("b", 1)]]) (CKey.idx "b" 0) := by
  refine ⟨?_, by decide, by decide⟩
  intro rss h1 hnd
  have h1f : ∀ r ∈ flatRegs rss, 1 ≤ r.2 := by
    intro r hr
    obtain ⟨rs, hrs, hr'⟩ := List.mem_flatMap.mp hr
    exact h1 rs hrs r (by simpa using hr')
  refine ⟨clbit_eq_tableOf rss h1 hnd, ?_, ?_, ?_, ?_⟩
  · rw [revAns, List.map_map]
    rw [show (Prod.fst ∘ fun e : CKey × Nat =>
      (e.1, fwdI 0 (flatRegs rss) - 1 - e.2)) = Prod.fst from rfl]
    exact fwdAns_keys (flatRegs rss) 0
  · have hp := perm_tableOf rss h1f hnd
    have hnod : (nonnegVals (tableOf rss) ++ revSeps rss).Nodup :=
      hp.nodup_iff.mpr (List.nodup_range _)
    exact List.Nodup.of_append_left hnod
  · intro r hr
    exact tableOf_alias rss h1f hnd r hr
  · intro r hr h1'
    exact tableOf_bare rss h1f hnd r hr h1'

/-- C1 counterexample: for the claim's own example — registers
`[("a", 3), ("b", 1)]`, 4 classical bits — the non-negative-index values
of the returned table are `[4, 3, 2, 0]`, which is *not* a permutation
of `{0, 1, 2, 3}`: the bit positions are memory-string character
positions, which skip the space separator between the two registers, so
the table is not a bijection onto `0..N-1`. -/
theorem c1_counterexample :
    clbit_label_to_mii [resLabels [("a", 3), ("b", 1)]] =
      .ok (tableOf [[("a", 3), ("b", 1)]]) ∧
    nonnegVals (tableOf [[("a", 3), ("b", 1)]]) = [4, 3, 2, 0] ∧
    ¬ (nonnegVals (tableOf [[("a", 3), ("b", 1)]])).Perm (List.range 4) := by
  refine ⟨by decide, by decide, by decide⟩

/-- Witness for C1 (amended) at the example `[("a", 3), ("b", 1)]`:
every hypothesis is discharged by evaluation. -/
theorem c1_bit_position_table_amended_witness :
    ((∀ rs ∈ [[("a", 3), ("b", 1)]], ∀ r ∈ rs, 1 ≤ r.2) ∧
     ((flatRegs [[("a", 3), ("b", 1)]]).map Prod.fst).Nodup) ∧
    clbit_label_to_mii ([[("a", 3), ("b", 1)]].map resLabels) =
      .ok (tableOf [[("a", 3), ("b", 1)]]) ∧
    (nonnegVals (tableOf [[("a", 3), ("b", 1)]])).Nodup ∧
    dget? (tableOf [[("a", 3), ("b", 1)]]) (CKey.idx "a" (-1)) =
      dget? (tableOf [[("a", 3), ("b", 1)]])
        (CKey.idx "a" ((3 - 1 : Nat) : Int)) :=
  have h := c1_bit_position_table_amended.1 [[("a", 3), ("b", 1)]] (by decide) (by decide)
  ⟨⟨by decide, by decide⟩, h.1, h.2.2.1, h.2.2.2.1 ("a", 3) (by decide)⟩

end PF
